import Mathlib

/-!
# Bounded random numbers: a verification development

Shallow embedding of the `bounded_rand` variants of `bounded32.cpp` and
`bounded64.cpp`.  The two files are the same text up to the word type, so
every definition takes the word width `w` (32 or 64 in the sources).

* A word is a natural number below `2 ^ w`; unsigned wraparound is written out
  with `% 2 ^ w`.
* The bit source `rng` is the list of the words it is still going to produce.
  A call `rng()` removes the head of the list.  When the list is exhausted
  before the function returns, the run is cut short and the result is `none`;
  otherwise the result is `some (v, rest)` with `v` the returned value and
  `rest` the words not consumed.
* `range = 0` is undefined behaviour in the sources (division by zero) and is
  outside the model: every statement below assumes `0 < range`.
-/

namespace BoundedRands

/-! ## Word arithmetic -/

/-- Unary minus on a `w`-bit unsigned word (`-x`). -/
def wneg (w x : Nat) : Nat := (2 ^ w - x) % 2 ^ w

/-- Subtraction `a - b` on `w`-bit unsigned words. -/
def wsub (w a b : Nat) : Nat := (a + 2 ^ w - b) % 2 ^ w

/-- Number of zero bits among the `n` lowest bits of `x`, counted downwards
from bit `n - 1` until the first set bit. -/
def clzAux (x : Nat) : Nat → Nat
  | 0 => 0
  | n + 1 => if x.testBit n then 0 else 1 + clzAux x n

/-- The compiler builtin `__builtin_clz` / `__builtin_clzl` on a `w`-bit word:
the number of leading zero bits (the builtin is undefined at `0`; the sources
only call it on `range|1`). -/
def clz (w x : Nat) : Nat := clzAux x w

/-- Double-width product `uintN_t(x) * uintN_t(range)` in `2 * w` bits. -/
def mul2w (w x range : Nat) : Nat := (x * range) % 2 ^ (2 * w)

/-- Low word of a double-width value (`uint32_t(m)`). -/
def lo (w m : Nat) : Nat := m % 2 ^ w

/-- High word of a double-width value, as returned (`m >> 32`). -/
def hi (w m : Nat) : Nat := (m >>> w) % 2 ^ w

/-! ## Shared loop bodies -/

/-- The MOPT threshold computation:
`t = -range; if (t >= range) { t -= range; if (t >= range) t %= range; }`. -/
def threshold_MOPT (w range : Nat) : Nat :=
  let t := wneg w range
  if t ≥ range then
    let t := wsub w t range
    if t ≥ range then t % range else t
  else t

/-- The MOPT output reduction:
`if (r >= range) { r -= range; if (r >= range) r %= range; }`. -/
def reduce_MOPT (w range r : Nat) : Nat :=
  if r ≥ range then
    let r := wsub w r range
    if r ≥ range then r % range else r
  else r

/-- The loop `while (r < t) r = rng();` with the current `r`. -/
def while_lt (t : Nat) : Nat → List Nat → Option (Nat × List Nat)
  | r, [] => if r < t then none else some (r, [])
  | r, r' :: rng => if r < t then while_lt t r' rng else some (r, r' :: rng)

/-- The loop `while (r >= range) r = rng();` with the current `r`. -/
def while_ge (range : Nat) : Nat → List Nat → Option (Nat × List Nat)
  | r, [] => if r ≥ range then none else some (r, [])
  | r, r' :: rng => if r ≥ range then while_ge range r' rng else some (r, r' :: rng)

/-- The loop `do { r = rng(); } while (r >= range);`. -/
def do_while_ge (range : Nat) : List Nat → Option (Nat × List Nat)
  | [] => none
  | r :: rng => if r ≥ range then do_while_ge range rng else some (r, rng)

/-- The loop `while (l < t) { x = rng(); m = x * range; l = uint32_t(m); }`
with the current product `m` (`l` is its low word); yields the final `m`. -/
def while_lo_lt (w range t : Nat) : Nat → List Nat → Option (Nat × List Nat)
  | m, [] => if lo w m < t then none else some (m, [])
  | m, x :: rng =>
    if lo w m < t then while_lo_lt w range t (mul2w w x range) rng
    else some (m, x :: rng)

/-! ## The variants of `bounded_rand` -/

/-- `USE_BIASED_MOD`. -/
def bounded_rand_BIASED_MOD (range : Nat) : List Nat → Option (Nat × List Nat)
  | [] => none
  | r :: rng => some (r % range, rng)

/-- The loop of `USE_DEBIASED_DIV`. -/
def DEBIASED_DIV_loop (range divisor : Nat) : List Nat → Option (Nat × List Nat)
  | [] => none
  | r :: rng =>
    let val := r / divisor
    if val < range then some (val, rng) else DEBIASED_DIV_loop range divisor rng

/-- `USE_DEBIASED_DIV`. -/
def bounded_rand_DEBIASED_DIV (w range : Nat) (rng : List Nat) : Option (Nat × List Nat) :=
  let divisor := (wneg w range / range + 1) % 2 ^ w
  if divisor = 0 then some (0, rng)
  else DEBIASED_DIV_loop range divisor rng

/-- The loop `for (;;) { r = rng(); if (r >= t) return r % range; }`. -/
def DEBIASED_MODx2_loop (range t : Nat) : List Nat → Option (Nat × List Nat)
  | [] => none
  | r :: rng => if r ≥ t then some (r % range, rng) else DEBIASED_MODx2_loop range t rng

/-- `USE_DEBIASED_MODx2`. -/
def bounded_rand_DEBIASED_MODx2 (w range : Nat) (rng : List Nat) : Option (Nat × List Nat) :=
  let t := wneg w range % range
  DEBIASED_MODx2_loop range t rng

/-- `USE_DEBIASED_MODx2_MOPT`. -/
def bounded_rand_DEBIASED_MODx2_MOPT (w range : Nat) (rng : List Nat) :
    Option (Nat × List Nat) :=
  let t := threshold_MOPT w range
  DEBIASED_MODx2_loop range t rng

/-- `USE_DEBIASED_MODx2_TOPT`. -/
def bounded_rand_DEBIASED_MODx2_TOPT (w range : Nat) : List Nat → Option (Nat × List Nat)
  | [] => none
  | r :: rng =>
    if r < range then
      let t := wneg w range % range
      (while_lt t r rng).map (fun p => (p.1 % range, p.2))
    else some (r % range, rng)

/-- `USE_DEBIASED_MODx2_TOPT_BOPT`. -/
def bounded_rand_DEBIASED_MODx2_TOPT_BOPT (w range : Nat) :
    List Nat → Option (Nat × List Nat)
  | [] => none
  | r :: rng =>
    if range ≥ 2 ^ (w - 1) then while_ge range r rng
    else if r < range then
      let t := wneg w range % range
      (while_lt t r rng).map (fun p => (p.1 % range, p.2))
    else some (r % range, rng)

/-- `USE_DEBIASED_MODx2_TOPT_MOPT`. -/
def bounded_rand_DEBIASED_MODx2_TOPT_MOPT (w range : Nat) :
    List Nat → Option (Nat × List Nat)
  | [] => none
  | r :: rng =>
    if r < range then
      let t := threshold_MOPT w range
      (while_lt t r rng).map (fun p => (p.1 % range, p.2))
    else some (r % range, rng)

/-- `USE_DEBIASED_MODx2_TOPT_MOPTx2`. -/
def bounded_rand_DEBIASED_MODx2_TOPT_MOPTx2 (w range : Nat) :
    List Nat → Option (Nat × List Nat)
  | [] => none
  | r :: rng =>
    if r < range then
      let t := threshold_MOPT w range
      (while_lt t r rng).map (fun p => (reduce_MOPT w range p.1, p.2))
    else some (reduce_MOPT w range r, rng)

/-- The loop `do { x = rng(); r = x % range; } while (x - r > uint32_t(-range));`
followed by `return r;`. -/
def DEBIASED_MODx1_loop (w range : Nat) : List Nat → Option (Nat × List Nat)
  | [] => none
  | x :: rng =>
    let r := x % range
    if wsub w x r > wneg w range then DEBIASED_MODx1_loop w range rng else some (r, rng)

/-- `USE_DEBIASED_MODx1`. -/
def bounded_rand_DEBIASED_MODx1 (w range : Nat) (rng : List Nat) : Option (Nat × List Nat) :=
  DEBIASED_MODx1_loop w range rng

/-- `USE_DEBIASED_MODx1_BOPT`. -/
def bounded_rand_DEBIASED_MODx1_BOPT (w range : Nat) (rng : List Nat) :
    Option (Nat × List Nat) :=
  if range ≥ 2 ^ (w - 1) then do_while_ge range rng
  else DEBIASED_MODx1_loop w range rng

/-- The loop of `USE_DEBIASED_MODx1_MOPT`, followed by `return r;`. -/
def DEBIASED_MODx1_MOPT_loop (w range : Nat) : List Nat → Option (Nat × List Nat)
  | [] => none
  | x :: rng =>
    let r := reduce_MOPT w range x
    if wsub w x r > wneg w range then DEBIASED_MODx1_MOPT_loop w range rng else some (r, rng)

/-- `USE_DEBIASED_MODx1_MOPT`. -/
def bounded_rand_DEBIASED_MODx1_MOPT (w range : Nat) (rng : List Nat) :
    Option (Nat × List Nat) :=
  DEBIASED_MODx1_MOPT_loop w range rng

/-- `USE_BIASED_INT_MULT`. -/
def bounded_rand_BIASED_INT_MULT (w range : Nat) : List Nat → Option (Nat × List Nat)
  | [] => none
  | x :: rng =>
    let m := mul2w w x range
    some (hi w m, rng)

/-- The loop `do { x = rng(); m = x * range; l = uint32_t(m); } while (l < t);`
followed by `return m >> 32;`. -/
def DEBIASED_INT_MULT_loop (w range t : Nat) : List Nat → Option (Nat × List Nat)
  | [] => none
  | x :: rng =>
    let m := mul2w w x range
    let l := lo w m
    if l < t then DEBIASED_INT_MULT_loop w range t rng else some (hi w m, rng)

/-- `USE_DEBIASED_INT_MULT`. -/
def bounded_rand_DEBIASED_INT_MULT (w range : Nat) (rng : List Nat) :
    Option (Nat × List Nat) :=
  let t := wneg w range % range
  DEBIASED_INT_MULT_loop w range t rng

/-- `USE_DEBIASED_INT_MULT_TOPT`. -/
def bounded_rand_DEBIASED_INT_MULT_TOPT (w range : Nat) :
    List Nat → Option (Nat × List Nat)
  | [] => none
  | x :: rng =>
    let m := mul2w w x range
    let l := lo w m
    if l < range then
      let t := wneg w range % range
      (while_lo_lt w range t m rng).map (fun p => (hi w p.1, p.2))
    else some (hi w m, rng)

/-- `USE_DEBIASED_INT_MULT_TOPT_BOPT`. -/
def bounded_rand_DEBIASED_INT_MULT_TOPT_BOPT (w range : Nat) :
    List Nat → Option (Nat × List Nat)
  | [] => none
  | x :: rng =>
    if range ≥ 2 ^ (w - 1) then while_ge range x rng
    else
      let m := mul2w w x range
      let l := lo w m
      if l < range then
        let t := wneg w range % range
        (while_lo_lt w range t m rng).map (fun p => (hi w p.1, p.2))
      else some (hi w m, rng)

/-- `USE_DEBIASED_INT_MULT_TOPT_MOPT`. -/
def bounded_rand_DEBIASED_INT_MULT_TOPT_MOPT (w range : Nat) :
    List Nat → Option (Nat × List Nat)
  | [] => none
  | x :: rng =>
    let m := mul2w w x range
    let l := lo w m
    if l < range then
      let t := threshold_MOPT w range
      (while_lo_lt w range t m rng).map (fun p => (hi w p.1, p.2))
    else some (hi w m, rng)

/-- The threshold computation of `USE_DEBIASED_INT_MULT_TOPT_MOPT_BOPT`:
`t = -range; t -= range; if (t >= range) t %= range;`. -/
def threshold_MOPT_BOPT (w range : Nat) : Nat :=
  let t := wneg w range
  let t := wsub w t range
  if t ≥ range then t % range else t

/-- `USE_DEBIASED_INT_MULT_TOPT_MOPT_BOPT`. -/
def bounded_rand_DEBIASED_INT_MULT_TOPT_MOPT_BOPT (w range : Nat) :
    List Nat → Option (Nat × List Nat)
  | [] => none
  | x :: rng =>
    if range ≥ 2 ^ (w - 1) then while_ge range x rng
    else
      let m := mul2w w x range
      let l := lo w m
      if l < range then
        let t := threshold_MOPT_BOPT w range
        (while_lo_lt w range t m rng).map (fun p => (hi w p.1, p.2))
      else some (hi w m, rng)

/-- The loop `do { x = rng() & mask; } while (x > range);` followed by
`return x;` (here `range` is the already decremented value). -/
def BITMASK_loop (range mask : Nat) : List Nat → Option (Nat × List Nat)
  | [] => none
  | r :: rng =>
    let x := r &&& mask
    if x > range then BITMASK_loop range mask rng else some (x, rng)

/-- `USE_BITMASK`. -/
def bounded_rand_BITMASK (w range : Nat) (rng : List Nat) : Option (Nat × List Nat) :=
  let mask := 2 ^ w - 1
  let range := wsub w range 1
  let mask := mask >>> clz w (range ||| 1)
  BITMASK_loop range mask rng

/-- The inner loop of `USE_BITMASK_ALT`,
`while (zeros >= shift) { r >>= shift; v = r & mask; if (v <= range) return v;
shift = 32 - (32 - shift)/2; }`, with the current `r` and `shift`.
`some (some v)` is `return v`, `some none` is leaving the loop without a
value, `none` is running out of the iteration budget `fuel`. -/
def BITMASK_ALT_retest (w range mask zeros : Nat) : Nat → Nat → Nat → Option (Option Nat)
  | 0, _, shift => if zeros ≥ shift then none else some none
  | fuel + 1, r, shift =>
    if zeros ≥ shift then
      let r := r >>> shift
      let v := r &&& mask
      if v ≤ range then some (some v)
      else BITMASK_ALT_retest w range mask zeros fuel r (w - (w - shift) / 2)
    else some none

/-- The outer loop `for (;;)` of `USE_BITMASK_ALT` (`range` is the already
decremented value).  The inner loop raises `shift` on every iteration and
stops once it exceeds `zeros < w`, so a budget of `w` iterations is enough. -/
def BITMASK_ALT_loop (w range mask zeros : Nat) : List Nat → Option (Nat × List Nat)
  | [] => none
  | r :: rng =>
    let v := r &&& mask
    if v ≤ range then some (v, rng)
    else
      match BITMASK_ALT_retest w range mask zeros w r (w / 2) with
      | none => none
      | some (some v) => some (v, rng)
      | some none => BITMASK_ALT_loop w range mask zeros rng

/-- `USE_BITMASK_ALT`. -/
def bounded_rand_BITMASK_ALT (w range : Nat) (rng : List Nat) : Option (Nat × List Nat) :=
  let range := wsub w range 1
  let zeros := clz w (range ||| 1)
  let mask := (2 ^ w - 1) >>> zeros
  BITMASK_ALT_loop w range mask zeros rng

/-- The integer-only build configurations of the sources (`USE_...`). -/
inductive Variant
  | BIASED_MOD
  | DEBIASED_DIV
  | DEBIASED_MODx2
  | DEBIASED_MODx2_MOPT
  | DEBIASED_MODx2_TOPT
  | DEBIASED_MODx2_TOPT_BOPT
  | DEBIASED_MODx2_TOPT_MOPT
  | DEBIASED_MODx2_TOPT_MOPTx2
  | DEBIASED_MODx1
  | DEBIASED_MODx1_BOPT
  | DEBIASED_MODx1_MOPT
  | BIASED_INT_MULT
  | DEBIASED_INT_MULT
  | DEBIASED_INT_MULT_TOPT
  | DEBIASED_INT_MULT_TOPT_BOPT
  | DEBIASED_INT_MULT_TOPT_MOPT
  | DEBIASED_INT_MULT_TOPT_MOPT_BOPT
  | BITMASK
  | BITMASK_ALT
  deriving DecidableEq, Repr

/-- The function `bounded_rand(rng, range)` as compiled under the given
configuration for `w`-bit words. -/
def bounded_rand (a : Variant) (w range : Nat) (rng : List Nat) : Option (Nat × List Nat) :=
  match a with
  | .BIASED_MOD => bounded_rand_BIASED_MOD range rng
  | .DEBIASED_DIV => bounded_rand_DEBIASED_DIV w range rng
  | .DEBIASED_MODx2 => bounded_rand_DEBIASED_MODx2 w range rng
  | .DEBIASED_MODx2_MOPT => bounded_rand_DEBIASED_MODx2_MOPT w range rng
  | .DEBIASED_MODx2_TOPT => bounded_rand_DEBIASED_MODx2_TOPT w range rng
  | .DEBIASED_MODx2_TOPT_BOPT => bounded_rand_DEBIASED_MODx2_TOPT_BOPT w range rng
  | .DEBIASED_MODx2_TOPT_MOPT => bounded_rand_DEBIASED_MODx2_TOPT_MOPT w range rng
  | .DEBIASED_MODx2_TOPT_MOPTx2 => bounded_rand_DEBIASED_MODx2_TOPT_MOPTx2 w range rng
  | .DEBIASED_MODx1 => bounded_rand_DEBIASED_MODx1 w range rng
  | .DEBIASED_MODx1_BOPT => bounded_rand_DEBIASED_MODx1_BOPT w range rng
  | .DEBIASED_MODx1_MOPT => bounded_rand_DEBIASED_MODx1_MOPT w range rng
  | .BIASED_INT_MULT => bounded_rand_BIASED_INT_MULT w range rng
  | .DEBIASED_INT_MULT => bounded_rand_DEBIASED_INT_MULT w range rng
  | .DEBIASED_INT_MULT_TOPT => bounded_rand_DEBIASED_INT_MULT_TOPT w range rng
  | .DEBIASED_INT_MULT_TOPT_BOPT => bounded_rand_DEBIASED_INT_MULT_TOPT_BOPT w range rng
  | .DEBIASED_INT_MULT_TOPT_MOPT => bounded_rand_DEBIASED_INT_MULT_TOPT_MOPT w range rng
  | .DEBIASED_INT_MULT_TOPT_MOPT_BOPT =>
    bounded_rand_DEBIASED_INT_MULT_TOPT_MOPT_BOPT w range rng
  | .BITMASK => bounded_rand_BITMASK w range rng
  | .BITMASK_ALT => bounded_rand_BITMASK_ALT w range rng

/-- Every word of the stream fits in `w` bits. -/
def wordsOK (w : Nat) (rng : List Nat) : Prop := ∀ x ∈ rng, x < 2 ^ w

instance (w : Nat) (rng : List Nat) : Decidable (wordsOK w rng) := by
  unfold wordsOK; infer_instance

/-- Number of `w`-bit words `r` for which the call on the one-word stream `[r]`
returns `v` (the word is accepted and yields `v`). -/
def acceptCount (a : Variant) (w range v : Nat) : Nat :=
  ((Finset.range (2 ^ w)).filter (fun r => bounded_rand a w range [r] = some (v, []))).card

/-- Number of `w`-bit words `r` for which the call on the one-word stream `[r]`
does not return (the word is rejected and a further draw is needed). -/
def rejectCount (a : Variant) (w range : Nat) : Nat :=
  ((Finset.range (2 ^ w)).filter (fun r => bounded_rand a w range [r] = none)).card


/-! ## Named parts of the variants -/

/-- The variable `divisor` of `USE_DEBIASED_DIV`: `((-range) / range) + 1`. -/
def divisor (w range : Nat) : Nat := (wneg w range / range + 1) % 2 ^ w

/-- The divisor of the debiased division variant as the specification words
it: `(2^W mod range)/range + 1`, as a `w`-bit word. -/
def divisor_spec (w range : Nat) : Nat := (2 ^ w % range / range + 1) % 2 ^ w

/-- The variable `mask` of `USE_BITMASK` and `USE_BITMASK_ALT` after
`--range; mask >>= __builtin_clz(range|1);`. -/
def BITMASK_mask (w range : Nat) : Nat := (2 ^ w - 1) >>> clz w (wsub w range 1 ||| 1)

/-! ## The workloads of `main` -/

/-- The values taken by `i` in `for (i = n; i > 0; --i)`, in order. -/
def countdown : Nat → List Nat
  | 0 => []
  | n + 1 => (n + 1) :: countdown n

/-- The values taken by `bit` in `for (...; bit != 0; bit <<= 1)` on `w`-bit
words, from the current `bit` on, within an iteration budget `fuel`. -/
def bit_loop (w : Nat) : Nat → Nat → List Nat
  | 0, _ => []
  | fuel + 1, bit => if bit ≠ 0 then bit :: bit_loop w fuel ((bit <<< 1) % 2 ^ w) else []

/-- The bound of Test 3, `bit | (i & (bit - 1))`. -/
def sweep_bound (w bit i : Nat) : Nat := bit ||| (i &&& wsub w bit 1)

/-- The bounds passed to `bounded_rand` by the inner loop of Test 3,
`for (i = 0; i < n; ++i)`, for one value of `bit`. -/
def test3_inner (w n bit : Nat) : List Nat :=
  (List.range n).map (fun i => sweep_bound w bit i)

/-- The bounds passed to `bounded_rand` by Test 3 on `w`-bit words, the inner
loop running over `i < n`.  The outer loop doubles `bit` from 1 until it
wraps to 0, which takes `w` iterations. -/
def test3_bounds (w n : Nat) : List Nat :=
  (bit_loop w (w + 1) 1).flatMap (fun bit => (List.range n).map (fun i => sweep_bound w bit i))

/-- The bounds passed to `bounded_rand` by `main` of `bounded32.cpp`
(Test 1, Test 2, Test 3), in order. -/
def main32_bounds : List Nat :=
  countdown 0xffffffff
    ++ (List.range 0xffff).flatMap (fun _ => countdown 0xffff)
    ++ test3_bounds 32 0x1000000

/-- The bounds passed to `bounded_rand` by `main` of `bounded64.cpp`
(Test 1 to Test 5), in order. -/
def main64_bounds : List Nat :=
  (countdown 0xffffffff).map (fun i => ((i <<< 32) % 2 ^ 64) ||| i)
    ++ countdown 0xffffffff
    ++ test3_bounds 64 0x800000
    ++ (List.range 0x80000000).map (fun _ => 52)
    ++ (List.range 0x80000000).map (fun _ => wneg 64 52)

/-! ## Facts about word arithmetic -/

theorem wneg_eq {w x : Nat} (h0 : 0 < x) : wneg w x = 2 ^ w - x := by
  unfold wneg
  have : 0 < 2 ^ w := Nat.two_pow_pos w
  exact Nat.mod_eq_of_lt (by omega)

theorem wsub_eq {w a b : Nat} (hb : b ≤ a) (ha : a < 2 ^ w) : wsub w a b = a - b := by
  unfold wsub
  have h : a + 2 ^ w - b = (a - b) + 2 ^ w := by omega
  rw [h, Nat.add_mod_right]
  exact Nat.mod_eq_of_lt (by omega)

theorem wneg_mod {w range : Nat} (h0 : 0 < range) (hr : range < 2 ^ w) :
    wneg w range % range = 2 ^ w % range := by
  rw [wneg_eq h0]
  have h : 2 ^ w = (2 ^ w - range) + range := by omega
  conv_rhs => rw [h, Nat.add_mod_right]

theorem reduce_MOPT_eq {w range r : Nat} (hr : r < 2 ^ w) :
    reduce_MOPT w range r = r % range := by
  unfold reduce_MOPT
  by_cases h : r ≥ range
  · have h1 : wsub w r range = r - range := wsub_eq h hr
    have h2 : (r - range) % range = r % range := by
      conv_rhs => rw [← Nat.sub_add_cancel h, Nat.add_mod_right]
    simp only [h, h1, if_true]
    split
    · exact h2
    · rw [← h2]; exact (Nat.mod_eq_of_lt (by omega)).symm
  · simp only [h, if_false]
    exact (Nat.mod_eq_of_lt (by omega)).symm

theorem threshold_MOPT_eq {w range : Nat} (h0 : 0 < range) (hr : range < 2 ^ w) :
    threshold_MOPT w range = 2 ^ w % range := by
  have h := @reduce_MOPT_eq w range (wneg w range)
    (by rw [wneg_eq h0]; omega)
  rw [wneg_mod h0 hr] at h
  exact h

theorem mul2w_eq {w x range : Nat} (hx : x < 2 ^ w) (hr : range < 2 ^ w) :
    mul2w w x range = x * range := by
  unfold mul2w
  apply Nat.mod_eq_of_lt
  have : 2 ^ (2 * w) = 2 ^ w * 2 ^ w := by rw [two_mul, pow_add]
  rw [this]
  exact Nat.mul_lt_mul'' hx hr

theorem mul2w_lt {w x range : Nat} (h0 : 0 < range) (hx : x < 2 ^ w) :
    mul2w w x range < range * 2 ^ w := by
  unfold mul2w
  refine lt_of_le_of_lt (Nat.mod_le _ _) ?_
  rw [Nat.mul_comm]
  exact Nat.mul_lt_mul_of_pos_left hx h0

theorem hi_lt {w m range : Nat} (hm : m < range * 2 ^ w) : hi w m < range := by
  unfold hi
  refine lt_of_le_of_lt (Nat.mod_le _ _) ?_
  rw [Nat.shiftRight_eq_div_pow]
  exact Nat.div_lt_of_lt_mul (by rw [Nat.mul_comm]; exact hm)

theorem wordsOK_cons {w x : Nat} {rng : List Nat} (h : wordsOK w (x :: rng)) :
    x < 2 ^ w ∧ wordsOK w rng :=
  ⟨h x (List.mem_cons_self _ _), fun y hy => h y (List.mem_cons_of_mem _ hy)⟩

/-! ## Counting words -/

/-- In `n * k` consecutive numbers exactly `k` have a given residue modulo `n`. -/
theorem card_filter_Ico_mod {n : Nat} (hn : 0 < n) (a k c : Nat) (hc : c < n) :
    ((Finset.Ico a (a + n * k)).filter (fun x => x % n = c)).card = k := by
  have hp : Function.Periodic (fun x => x ≡ c [MOD n]) (n * k) := by
    intro x
    simp only [Nat.ModEq, Nat.add_mul_mod_self_left]
  have h1 := Nat.filter_Ico_card_eq_of_periodic a (n * k) (fun x => x ≡ c [MOD n]) hp
  have h2 := Nat.count_modEq_card (n * k) hn c
  simp only [Nat.mul_mod_right, Nat.not_lt_zero, if_false, Nat.add_zero,
    Nat.mul_div_cancel_left k hn] at h2
  rw [h2] at h1
  have h3 : (Finset.Ico a (a + n * k)).filter (fun x => x % n = c)
      = (Finset.Ico a (a + n * k)).filter (fun x => x ≡ c [MOD n]) := by
    apply Finset.filter_congr
    intro x _
    simp only [Nat.ModEq, Nat.mod_eq_of_lt hc]
  rw [h3]
  exact h1

/-- Exactly `k` multiples `x * n` fall in a window of `n * k` consecutive numbers. -/
theorem card_filter_mul_window {n : Nat} (hn : 0 < n) (A k M : Nat)
    (hM : ∀ x, x * n < A + n * k → x < M) :
    ((Finset.range M).filter (fun x => A ≤ x * n ∧ x * n < A + n * k)).card = k := by
  have hset : (Finset.range M).filter (fun x => A ≤ x * n ∧ x * n < A + n * k)
      = Finset.Ico ((A + n - 1) / n) ((A + n - 1) / n + k) := by
    ext x
    simp only [Finset.mem_filter, Finset.mem_range, Finset.mem_Ico]
    have e1 : (A + n - 1) / n ≤ x ↔ A ≤ x * n := by
      rw [← Nat.lt_succ_iff, Nat.div_lt_iff_lt_mul hn, Nat.succ_mul]
      omega
    have e2 : x < (A + n - 1) / n + k ↔ x * n < A + n * k := by
      rw [← not_le, ← not_le, not_iff_not]
      constructor
      · intro h
        have h' : (A + n - 1) / n ≤ x - k := Nat.le_sub_of_add_le h
        rw [← Nat.lt_succ_iff, Nat.div_lt_iff_lt_mul hn, Nat.succ_mul, Nat.sub_mul] at h'
        have : k * n ≤ x * n := Nat.mul_le_mul_right n (le_trans (Nat.le_add_left _ _) h)
        rw [Nat.mul_comm n k]
        omega
      · intro h
        rw [Nat.mul_comm n k] at h
        by_cases hk : k ≤ x
        · have h' : (A + n - 1) / n ≤ x - k := by
            rw [← Nat.lt_succ_iff, Nat.div_lt_iff_lt_mul hn, Nat.succ_mul, Nat.sub_mul]
            have : k * n ≤ x * n := Nat.mul_le_mul_right n hk
            omega
          exact Nat.add_le_of_le_sub hk h'
        · exfalso
          have : x * n < k * n := Nat.mul_lt_mul_of_pos_right (by omega) hn
          have h3 : 0 < k * n := by omega
          omega
    rw [e1, e2]
    constructor
    · rintro ⟨_, h⟩; exact h
    · intro h; exact ⟨hM x h.2, h⟩
  rw [hset, Nat.card_Ico]
  omega

/-! ## The value returned is below `range` -/

theorem DEBIASED_MODx2_loop_lt {range t : Nat} (h0 : 0 < range) :
    ∀ (rng : List Nat) (v : Nat) (rest : List Nat),
      DEBIASED_MODx2_loop range t rng = some (v, rest) → v < range := by
  intro rng
  induction rng with
  | nil => intro v rest h; simp [DEBIASED_MODx2_loop] at h
  | cons r rng ih =>
    intro v rest h
    simp only [DEBIASED_MODx2_loop] at h
    split at h
    · simp only [Option.some.injEq, Prod.mk.injEq] at h
      rw [← h.1]; exact Nat.mod_lt _ h0
    · exact ih v rest h

theorem DEBIASED_DIV_loop_lt {range d : Nat} :
    ∀ (rng : List Nat) (v : Nat) (rest : List Nat),
      DEBIASED_DIV_loop range d rng = some (v, rest) → v < range := by
  intro rng
  induction rng with
  | nil => intro v rest h; simp [DEBIASED_DIV_loop] at h
  | cons r rng ih =>
    intro v rest h
    simp only [DEBIASED_DIV_loop] at h
    split at h
    · rename_i hlt
      simp only [Option.some.injEq, Prod.mk.injEq] at h
      rw [← h.1]; exact hlt
    · exact ih v rest h

theorem while_ge_lt {range : Nat} :
    ∀ (rng : List Nat) (r v : Nat) (rest : List Nat),
      while_ge range r rng = some (v, rest) → v < range := by
  intro rng
  induction rng with
  | nil =>
    intro r v rest h
    simp only [while_ge] at h
    split at h
    · simp at h
    · simp only [Option.some.injEq, Prod.mk.injEq] at h
      omega
  | cons r' rng ih =>
    intro r v rest h
    simp only [while_ge] at h
    split at h
    · exact ih r' v rest h
    · simp only [Option.some.injEq, Prod.mk.injEq] at h
      omega

theorem do_while_ge_lt {range : Nat} :
    ∀ (rng : List Nat) (v : Nat) (rest : List Nat),
      do_while_ge range rng = some (v, rest) → v < range := by
  intro rng
  induction rng with
  | nil => intro v rest h; simp [do_while_ge] at h
  | cons r rng ih =>
    intro v rest h
    simp only [do_while_ge] at h
    split at h
    · exact ih v rest h
    · simp only [Option.some.injEq, Prod.mk.injEq] at h
      omega

theorem map_mod_lt {range : Nat} (h0 : 0 < range) (o : Option (Nat × List Nat))
    (v : Nat) (rest : List Nat)
    (h : o.map (fun p => (p.1 % range, p.2)) = some (v, rest)) : v < range := by
  cases o with
  | none => simp at h
  | some p =>
    simp only [Option.map_some', Option.some.injEq, Prod.mk.injEq] at h
    rw [← h.1]; exact Nat.mod_lt _ h0

theorem reduce_MOPT_lt {w range r : Nat} (h0 : 0 < range) (hr : r < 2 ^ w) :
    reduce_MOPT w range r < range := by
  rw [reduce_MOPT_eq hr]; exact Nat.mod_lt _ h0

theorem while_lt_word {w t : Nat} :
    ∀ (rng : List Nat) (r v : Nat) (rest : List Nat), r < 2 ^ w → wordsOK w rng →
      while_lt t r rng = some (v, rest) → v < 2 ^ w := by
  intro rng
  induction rng with
  | nil =>
    intro r v rest hr _ h
    simp only [while_lt] at h
    split at h
    · simp at h
    · simp only [Option.some.injEq, Prod.mk.injEq] at h
      omega
  | cons r' rng ih =>
    intro r v rest hr hws h
    simp only [while_lt] at h
    split at h
    · exact ih r' v rest (wordsOK_cons hws).1 (wordsOK_cons hws).2 h
    · simp only [Option.some.injEq, Prod.mk.injEq] at h
      omega

theorem DEBIASED_MODx1_loop_lt {w range : Nat} (h0 : 0 < range) :
    ∀ (rng : List Nat) (v : Nat) (rest : List Nat),
      DEBIASED_MODx1_loop w range rng = some (v, rest) → v < range := by
  intro rng
  induction rng with
  | nil => intro v rest h; simp [DEBIASED_MODx1_loop] at h
  | cons r rng ih =>
    intro v rest h
    simp only [DEBIASED_MODx1_loop] at h
    split at h
    · exact ih v rest h
    · simp only [Option.some.injEq, Prod.mk.injEq] at h
      rw [← h.1]; exact Nat.mod_lt _ h0

theorem DEBIASED_MODx1_MOPT_loop_lt {w range : Nat} (h0 : 0 < range) :
    ∀ (rng : List Nat) (v : Nat) (rest : List Nat), wordsOK w rng →
      DEBIASED_MODx1_MOPT_loop w range rng = some (v, rest) → v < range := by
  intro rng
  induction rng with
  | nil => intro v rest _ h; simp [DEBIASED_MODx1_MOPT_loop] at h
  | cons r rng ih =>
    intro v rest hws h
    simp only [DEBIASED_MODx1_MOPT_loop] at h
    split at h
    · exact ih v rest (wordsOK_cons hws).2 h
    · simp only [Option.some.injEq, Prod.mk.injEq] at h
      rw [← h.1]; exact reduce_MOPT_lt h0 (wordsOK_cons hws).1

theorem DEBIASED_INT_MULT_loop_lt {w range t : Nat} (h0 : 0 < range) :
    ∀ (rng : List Nat) (v : Nat) (rest : List Nat), wordsOK w rng →
      DEBIASED_INT_MULT_loop w range t rng = some (v, rest) → v < range := by
  intro rng
  induction rng with
  | nil => intro v rest _ h; simp [DEBIASED_INT_MULT_loop] at h
  | cons r rng ih =>
    intro v rest hws h
    simp only [DEBIASED_INT_MULT_loop] at h
    split at h
    · exact ih v rest (wordsOK_cons hws).2 h
    · simp only [Option.some.injEq, Prod.mk.injEq] at h
      rw [← h.1]; exact hi_lt (mul2w_lt h0 (wordsOK_cons hws).1)

theorem while_lo_lt_bound {w range t : Nat} (h0 : 0 < range) :
    ∀ (rng : List Nat) (m m' : Nat) (rest : List Nat), m < range * 2 ^ w → wordsOK w rng →
      while_lo_lt w range t m rng = some (m', rest) → m' < range * 2 ^ w := by
  intro rng
  induction rng with
  | nil =>
    intro m m' rest hm _ h
    simp only [while_lo_lt] at h
    split at h
    · simp at h
    · simp only [Option.some.injEq, Prod.mk.injEq] at h
      omega
  | cons x rng ih =>
    intro m m' rest hm hws h
    simp only [while_lo_lt] at h
    split at h
    · exact ih _ m' rest (mul2w_lt h0 (wordsOK_cons hws).1) (wordsOK_cons hws).2 h
    · simp only [Option.some.injEq, Prod.mk.injEq] at h
      omega

theorem map_hi_lt {w range t : Nat} (h0 : 0 < range) (rng : List Nat) (m : Nat)
    (hm : m < range * 2 ^ w) (hws : wordsOK w rng) (v : Nat) (rest : List Nat)
    (h : (while_lo_lt w range t m rng).map (fun p => (hi w p.1, p.2)) = some (v, rest)) :
    v < range := by
  cases ho : while_lo_lt w range t m rng with
  | none => rw [ho] at h; simp at h
  | some p =>
    rw [ho] at h
    simp only [Option.map_some', Option.some.injEq, Prod.mk.injEq] at h
    rw [← h.1]
    exact hi_lt (while_lo_lt_bound h0 rng m p.1 p.2 hm hws ho)

theorem BITMASK_loop_le {range mask : Nat} :
    ∀ (rng : List Nat) (v : Nat) (rest : List Nat),
      BITMASK_loop range mask rng = some (v, rest) → v ≤ range := by
  intro rng
  induction rng with
  | nil => intro v rest h; simp [BITMASK_loop] at h
  | cons r rng ih =>
    intro v rest h
    simp only [BITMASK_loop] at h
    split at h
    · exact ih v rest h
    · simp only [Option.some.injEq, Prod.mk.injEq] at h
      omega

theorem BITMASK_ALT_retest_le {w range mask zeros : Nat} :
    ∀ (fuel r shift v : Nat),
      BITMASK_ALT_retest w range mask zeros fuel r shift = some (some v) → v ≤ range := by
  intro fuel
  induction fuel with
  | zero =>
    intro r shift v h
    simp only [BITMASK_ALT_retest] at h
    split at h <;> simp at h
  | succ fuel ih =>
    intro r shift v h
    simp only [BITMASK_ALT_retest] at h
    split at h
    · split at h
      · simp only [Option.some.injEq] at h
        omega
      · exact ih _ _ v h
    · simp at h

theorem BITMASK_ALT_loop_le {w range mask zeros : Nat} :
    ∀ (rng : List Nat) (v : Nat) (rest : List Nat),
      BITMASK_ALT_loop w range mask zeros rng = some (v, rest) → v ≤ range := by
  intro rng
  induction rng with
  | nil => intro v rest h; simp [BITMASK_ALT_loop] at h
  | cons r rng ih =>
    intro v rest h
    simp only [BITMASK_ALT_loop] at h
    split at h
    · simp only [Option.some.injEq, Prod.mk.injEq] at h
      omega
    · split at h
      · simp at h
      · rename_i v' hv'
        simp only [Option.some.injEq, Prod.mk.injEq] at h
        have := BITMASK_ALT_retest_le _ _ _ _ hv'
        omega
      · exact ih v rest h

/-- C1: for every integer-only variant, every width `w`, every range with
`0 < range < 2 ^ w` and every stream of `w`-bit words, a value returned by
`bounded_rand` is below `range`. -/
theorem bounded_rand_lt_range (a : Variant) (w range : Nat) (rng : List Nat)
    (v : Nat) (rest : List Nat) (h0 : 0 < range) (hr : range < 2 ^ w)
    (hws : wordsOK w rng) (h : bounded_rand a w range rng = some (v, rest)) :
    v < range := by
  have hsub : wsub w range 1 = range - 1 := wsub_eq h0 hr
  cases a <;> simp only [bounded_rand] at h
  case BIASED_MOD =>
    cases rng with
    | nil => simp [bounded_rand_BIASED_MOD] at h
    | cons r rng =>
      simp only [bounded_rand_BIASED_MOD, Option.some.injEq, Prod.mk.injEq] at h
      rw [← h.1]; exact Nat.mod_lt _ h0
  case DEBIASED_DIV =>
    simp only [bounded_rand_DEBIASED_DIV] at h
    split at h
    · simp only [Option.some.injEq, Prod.mk.injEq] at h
      omega
    · exact DEBIASED_DIV_loop_lt _ _ _ h
  case DEBIASED_MODx2 => exact DEBIASED_MODx2_loop_lt h0 _ _ _ h
  case DEBIASED_MODx2_MOPT => exact DEBIASED_MODx2_loop_lt h0 _ _ _ h
  case DEBIASED_MODx2_TOPT =>
    cases rng with
    | nil => simp [bounded_rand_DEBIASED_MODx2_TOPT] at h
    | cons r rng =>
      simp only [bounded_rand_DEBIASED_MODx2_TOPT] at h
      split at h
      · exact map_mod_lt h0 _ _ _ h
      · simp only [Option.some.injEq, Prod.mk.injEq] at h
        rw [← h.1]; exact Nat.mod_lt _ h0
  case DEBIASED_MODx2_TOPT_BOPT =>
    cases rng with
    | nil => simp [bounded_rand_DEBIASED_MODx2_TOPT_BOPT] at h
    | cons r rng =>
      simp only [bounded_rand_DEBIASED_MODx2_TOPT_BOPT] at h
      split at h
      · exact while_ge_lt _ _ _ _ h
      · split at h
        · exact map_mod_lt h0 _ _ _ h
        · simp only [Option.some.injEq, Prod.mk.injEq] at h
          rw [← h.1]; exact Nat.mod_lt _ h0
  case DEBIASED_MODx2_TOPT_MOPT =>
    cases rng with
    | nil => simp [bounded_rand_DEBIASED_MODx2_TOPT_MOPT] at h
    | cons r rng =>
      simp only [bounded_rand_DEBIASED_MODx2_TOPT_MOPT] at h
      split at h
      · exact map_mod_lt h0 _ _ _ h
      · simp only [Option.some.injEq, Prod.mk.injEq] at h
        rw [← h.1]; exact Nat.mod_lt _ h0
  case DEBIASED_MODx2_TOPT_MOPTx2 =>
    cases rng with
    | nil => simp [bounded_rand_DEBIASED_MODx2_TOPT_MOPTx2] at h
    | cons r rng =>
      simp only [bounded_rand_DEBIASED_MODx2_TOPT_MOPTx2] at h
      split at h
      · cases ho : while_lt (threshold_MOPT w range) r rng with
        | none => rw [ho] at h; simp at h
        | some p =>
          rw [ho] at h
          simp only [Option.map_some', Option.some.injEq, Prod.mk.injEq] at h
          rw [← h.1]
          exact reduce_MOPT_lt h0
            (while_lt_word rng r p.1 p.2 (wordsOK_cons hws).1 (wordsOK_cons hws).2 ho)
      · simp only [Option.some.injEq, Prod.mk.injEq] at h
        rw [← h.1]; exact reduce_MOPT_lt h0 (wordsOK_cons hws).1
  case DEBIASED_MODx1 => exact DEBIASED_MODx1_loop_lt h0 _ _ _ h
  case DEBIASED_MODx1_BOPT =>
    simp only [bounded_rand_DEBIASED_MODx1_BOPT] at h
    split at h
    · exact do_while_ge_lt _ _ _ h
    · exact DEBIASED_MODx1_loop_lt h0 _ _ _ h
  case DEBIASED_MODx1_MOPT => exact DEBIASED_MODx1_MOPT_loop_lt h0 _ _ _ hws h
  case BIASED_INT_MULT =>
    cases rng with
    | nil => simp [bounded_rand_BIASED_INT_MULT] at h
    | cons r rng =>
      simp only [bounded_rand_BIASED_INT_MULT, Option.some.injEq, Prod.mk.injEq] at h
      rw [← h.1]; exact hi_lt (mul2w_lt h0 (wordsOK_cons hws).1)
  case DEBIASED_INT_MULT => exact DEBIASED_INT_MULT_loop_lt h0 _ _ _ hws h
  case DEBIASED_INT_MULT_TOPT =>
    cases rng with
    | nil => simp [bounded_rand_DEBIASED_INT_MULT_TOPT] at h
    | cons r rng =>
      have hm := @mul2w_lt w r range h0 (wordsOK_cons hws).1
      simp only [bounded_rand_DEBIASED_INT_MULT_TOPT] at h
      split at h
      · exact map_hi_lt h0 _ _ hm (wordsOK_cons hws).2 _ _ h
      · simp only [Option.some.injEq, Prod.mk.injEq] at h
        rw [← h.1]; exact hi_lt hm
  case DEBIASED_INT_MULT_TOPT_BOPT =>
    cases rng with
    | nil => simp [bounded_rand_DEBIASED_INT_MULT_TOPT_BOPT] at h
    | cons r rng =>
      have hm := @mul2w_lt w r range h0 (wordsOK_cons hws).1
      simp only [bounded_rand_DEBIASED_INT_MULT_TOPT_BOPT] at h
      split at h
      · exact while_ge_lt _ _ _ _ h
      · split at h
        · exact map_hi_lt h0 _ _ hm (wordsOK_cons hws).2 _ _ h
        · simp only [Option.some.injEq, Prod.mk.injEq] at h
          rw [← h.1]; exact hi_lt hm
  case DEBIASED_INT_MULT_TOPT_MOPT =>
    cases rng with
    | nil => simp [bounded_rand_DEBIASED_INT_MULT_TOPT_MOPT] at h
    | cons r rng =>
      have hm := @mul2w_lt w r range h0 (wordsOK_cons hws).1
      simp only [bounded_rand_DEBIASED_INT_MULT_TOPT_MOPT] at h
      split at h
      · exact map_hi_lt h0 _ _ hm (wordsOK_cons hws).2 _ _ h
      · simp only [Option.some.injEq, Prod.mk.injEq] at h
        rw [← h.1]; exact hi_lt hm
  case DEBIASED_INT_MULT_TOPT_MOPT_BOPT =>
    cases rng with
    | nil => simp [bounded_rand_DEBIASED_INT_MULT_TOPT_MOPT_BOPT] at h
    | cons r rng =>
      have hm := @mul2w_lt w r range h0 (wordsOK_cons hws).1
      simp only [bounded_rand_DEBIASED_INT_MULT_TOPT_MOPT_BOPT] at h
      split at h
      · exact while_ge_lt _ _ _ _ h
      · split at h
        · exact map_hi_lt h0 _ _ hm (wordsOK_cons hws).2 _ _ h
        · simp only [Option.some.injEq, Prod.mk.injEq] at h
          rw [← h.1]; exact hi_lt hm
  case BITMASK =>
    simp only [bounded_rand_BITMASK, hsub] at h
    have := BITMASK_loop_le _ _ _ h
    omega
  case BITMASK_ALT =>
    simp only [bounded_rand_BITMASK_ALT, hsub] at h
    have := BITMASK_ALT_loop_le _ _ _ h
    omega

/-- Witness for C1: the 32-bit bitmask variant on range 7 and a two-word stream. -/
theorem bounded_rand_lt_range_witness :
    bounded_rand .BITMASK 32 7 [0xffffffff, 0x1d] = some (5, []) ∧ 5 < 7 :=
  ⟨by decide, bounded_rand_lt_range .BITMASK 32 7 [0xffffffff, 0x1d] 5 [] (by decide)
    (by decide) (by decide) (by decide)⟩

theorem two_pow_split (w range : Nat) : 2 ^ w % range + range * (2 ^ w / range) = 2 ^ w :=
  Nat.mod_add_div _ _

/-- C2: debiased modulo x2.  A drawn word `r` is accepted iff `r ≥ 2 ^ w % range`,
an accepted word returns `r % range` (a rejected one is followed by the next
draw), and every `v < range` is returned by exactly `2 ^ w / range` of the
`w`-bit words. -/
theorem DEBIASED_MODx2_uniform (w range : Nat) (h0 : 0 < range) (hr : range < 2 ^ w) :
    (∀ (r : Nat) (rng : List Nat),
      bounded_rand .DEBIASED_MODx2 w range (r :: rng)
        = if r ≥ 2 ^ w % range then some (r % range, rng)
          else bounded_rand .DEBIASED_MODx2 w range rng) ∧
    (∀ v, v < range → acceptCount .DEBIASED_MODx2 w range v = 2 ^ w / range) := by
  constructor
  · intro r rng
    simp only [bounded_rand, bounded_rand_DEBIASED_MODx2, DEBIASED_MODx2_loop, wneg_mod h0 hr]
  · intro v hv
    unfold acceptCount
    have hset : (Finset.range (2 ^ w)).filter
          (fun r => bounded_rand .DEBIASED_MODx2 w range [r] = some (v, []))
        = (Finset.Ico (2 ^ w % range) (2 ^ w % range + range * (2 ^ w / range))).filter
          (fun x => x % range = v) := by
      ext r
      simp only [bounded_rand, bounded_rand_DEBIASED_MODx2, DEBIASED_MODx2_loop,
        wneg_mod h0 hr, Finset.mem_filter, Finset.mem_range, Finset.mem_Ico, two_pow_split]
      by_cases h : r ≥ 2 ^ w % range
      · simp [h]
      · simp [h]
    rw [hset]
    exact card_filter_Ico_mod h0 _ _ v hv

/-- Witness for C2: 32-bit words, range 7. -/
theorem DEBIASED_MODx2_uniform_witness :
    (∀ (r : Nat) (rng : List Nat),
      bounded_rand .DEBIASED_MODx2 32 7 (r :: rng)
        = if r ≥ 2 ^ 32 % 7 then some (r % 7, rng)
          else bounded_rand .DEBIASED_MODx2 32 7 rng) ∧
    (∀ v, v < 7 → acceptCount .DEBIASED_MODx2 32 7 v = 2 ^ 32 / 7) :=
  DEBIASED_MODx2_uniform 32 7 (by decide) (by decide)

theorem hi_mul2w {w x range : Nat} (hx : x < 2 ^ w) (hr : range < 2 ^ w) :
    hi w (mul2w w x range) = x * range / 2 ^ w := by
  rw [mul2w_eq hx hr]
  unfold hi
  rw [Nat.shiftRight_eq_div_pow]
  apply Nat.mod_eq_of_lt
  apply Nat.div_lt_of_lt_mul
  exact Nat.mul_lt_mul'' hx hr

theorem lo_mul2w {w x range : Nat} (hx : x < 2 ^ w) (hr : range < 2 ^ w) :
    lo w (mul2w w x range) = x * range % 2 ^ w := by
  rw [mul2w_eq hx hr]; rfl

/-- A product has high word `v` and low word at least `t` exactly when it lies
in the window `[v * N + t, v * N + N)`. -/
theorem hi_lo_window {N t m v : Nat} (hN : 0 < N) :
    (t ≤ m % N ∧ m / N = v) ↔ (v * N + t ≤ m ∧ m < v * N + N) := by
  have hm := Nat.div_add_mod m N
  have hs := Nat.mod_lt m hN
  constructor
  · rintro ⟨h1, h2⟩
    rw [h2, Nat.mul_comm] at hm
    omega
  · rintro ⟨h1, h2⟩
    have hq : m / N = v := Nat.div_eq_of_lt_le (by omega) (by rw [Nat.succ_mul]; omega)
    rw [hq, Nat.mul_comm] at hm
    exact ⟨by omega, hq⟩

/-- The threshold `2 ^ w % range` is below half of the word space. -/
theorem two_pow_mod_lt_half {w range : Nat} (h0 : 0 < range) (hr : range < 2 ^ w) :
    2 ^ w % range < 2 ^ (w - 1) := by
  have h1 : 2 ^ w % range < range := Nat.mod_lt _ h0
  have h2 := two_pow_split w range
  have h3 : 0 < 2 ^ w / range := Nat.div_pos (le_of_lt hr) h0
  have h4 : range ≤ range * (2 ^ w / range) := Nat.le_mul_of_pos_right _ h3
  have hw : w ≠ 0 := by
    rintro rfl
    simp at hr
    omega
  have h5 : 2 ^ w = 2 * 2 ^ (w - 1) := by
    rw [← pow_succ']
    congr 1
    omega
  omega

/-- C3: Lemire's debiased integer multiplication.  With `m = x * range` in
`2 * w` bits, a word `x` is accepted iff the low word of `m` is at least
`2 ^ w % range`, an accepted word returns the high word of `m`, and every
`v < range` is returned by exactly `2 ^ w / range` of the `w`-bit words. -/
theorem DEBIASED_INT_MULT_uniform (w range : Nat) (h0 : 0 < range) (hr : range < 2 ^ w) :
    (∀ (x : Nat) (rng : List Nat), x < 2 ^ w →
      bounded_rand .DEBIASED_INT_MULT w range (x :: rng)
        = if x * range % 2 ^ w ≥ 2 ^ w % range then some (x * range / 2 ^ w, rng)
          else bounded_rand .DEBIASED_INT_MULT w range rng) ∧
    (∀ v, v < range → acceptCount .DEBIASED_INT_MULT w range v = 2 ^ w / range) := by
  have hN : 0 < 2 ^ w := Nat.two_pow_pos w
  have hstep : ∀ (x : Nat) (rng : List Nat), x < 2 ^ w →
      bounded_rand .DEBIASED_INT_MULT w range (x :: rng)
        = if x * range % 2 ^ w ≥ 2 ^ w % range then some (x * range / 2 ^ w, rng)
          else bounded_rand .DEBIASED_INT_MULT w range rng := by
    intro x rng hx
    simp only [bounded_rand, bounded_rand_DEBIASED_INT_MULT, DEBIASED_INT_MULT_loop,
      wneg_mod h0 hr, hi_mul2w hx hr, lo_mul2w hx hr]
    by_cases h : x * range % 2 ^ w < 2 ^ w % range
    · rw [if_pos h, if_neg (by omega)]
    · rw [if_neg h, if_pos (by omega)]
  refine ⟨hstep, ?_⟩
  intro v hv
  unfold acceptCount
  have hset : (Finset.range (2 ^ w)).filter
        (fun x => bounded_rand .DEBIASED_INT_MULT w range [x] = some (v, []))
      = (Finset.range (2 ^ w)).filter
        (fun x => v * 2 ^ w + 2 ^ w % range ≤ x * range ∧
          x * range < v * 2 ^ w + 2 ^ w % range + range * (2 ^ w / range)) := by
    apply Finset.filter_congr
    intro x hx
    rw [Finset.mem_range] at hx
    have e : v * 2 ^ w + 2 ^ w % range + range * (2 ^ w / range) = v * 2 ^ w + 2 ^ w := by
      rw [Nat.add_assoc, two_pow_split]
    rw [hstep x [] hx, e, ← hi_lo_window hN]
    by_cases h : x * range % 2 ^ w ≥ 2 ^ w % range
    · simp [h]
    · simp [h, bounded_rand, bounded_rand_DEBIASED_INT_MULT, DEBIASED_INT_MULT_loop]
  rw [hset]
  apply card_filter_mul_window h0
  intro x hx
  rw [Nat.add_assoc, two_pow_split] at hx
  have h1 : v * 2 ^ w + 2 ^ w ≤ range * 2 ^ w := by
    rw [← Nat.succ_mul]
    exact Nat.mul_le_mul_right _ hv
  have h2 : x * range < 2 ^ w * range := by rw [Nat.mul_comm (2 ^ w)]; omega
  exact Nat.lt_of_mul_lt_mul_right h2

/-- Witness for C3: 64-bit words, range 52 (the constant of the 64-bit Test 4). -/
theorem DEBIASED_INT_MULT_uniform_witness :
    (∀ (x : Nat) (rng : List Nat), x < 2 ^ 64 →
      bounded_rand .DEBIASED_INT_MULT 64 52 (x :: rng)
        = if x * 52 % 2 ^ 64 ≥ 2 ^ 64 % 52 then some (x * 52 / 2 ^ 64, rng)
          else bounded_rand .DEBIASED_INT_MULT 64 52 rng) ∧
    (∀ v, v < 52 → acceptCount .DEBIASED_INT_MULT 64 52 v = 2 ^ 64 / 52) :=
  DEBIASED_INT_MULT_uniform 64 52 (by decide) (by decide)

/-- The wraparound test of the x1 family, `x - r > -range` with `r = x % range`,
holds exactly on the overhang `x ≥ 2 ^ w - 2 ^ w % range`. -/
theorem MODx1_test_iff {w range x : Nat} (h0 : 0 < range) (hr : range < 2 ^ w)
    (hx : x < 2 ^ w) :
    wsub w x (x % range) > wneg w range ↔ x ≥ 2 ^ w - 2 ^ w % range := by
  rw [wsub_eq (Nat.mod_le _ _) hx, wneg_eq h0]
  have hsplit := two_pow_split w range
  have ht : 2 ^ w % range < range := Nat.mod_lt _ h0
  have hxs := Nat.mod_add_div x range
  have hs : x % range < range := Nat.mod_lt _ h0
  by_cases hq : 2 ^ w / range ≤ x / range
  · have h1 : range * (2 ^ w / range) ≤ range * (x / range) := Nat.mul_le_mul_left _ hq
    constructor
    · intro _; omega
    · intro _; omega
  · have h1 : range * (x / range + 1) ≤ range * (2 ^ w / range) :=
      Nat.mul_le_mul_left _ (by omega)
    rw [Nat.mul_add, Nat.mul_one] at h1
    constructor
    · intro h; omega
    · intro h; omega

/-- C4: debiased modulo x1.  For `r = x % range` the wraparound test
`x - r > -range` is true iff `x ≥ 2 ^ w - 2 ^ w % range`; a word failing the
test is accepted and returns `x % range`; every `v < range` is returned by
exactly `2 ^ w / range` accepted words. -/
theorem DEBIASED_MODx1_overhang (w range : Nat) (h0 : 0 < range) (hr : range < 2 ^ w) :
    (∀ x, x < 2 ^ w →
      (wsub w x (x % range) > wneg w range ↔ x ≥ 2 ^ w - 2 ^ w % range)) ∧
    (∀ (x : Nat) (rng : List Nat), x < 2 ^ w →
      bounded_rand .DEBIASED_MODx1 w range (x :: rng)
        = if x ≥ 2 ^ w - 2 ^ w % range then bounded_rand .DEBIASED_MODx1 w range rng
          else some (x % range, rng)) ∧
    (∀ v, v < range → acceptCount .DEBIASED_MODx1 w range v = 2 ^ w / range) := by
  have hstep : ∀ (x : Nat) (rng : List Nat), x < 2 ^ w →
      bounded_rand .DEBIASED_MODx1 w range (x :: rng)
        = if x ≥ 2 ^ w - 2 ^ w % range then bounded_rand .DEBIASED_MODx1 w range rng
          else some (x % range, rng) := by
    intro x rng hx
    simp only [bounded_rand, bounded_rand_DEBIASED_MODx1, DEBIASED_MODx1_loop,
      MODx1_test_iff h0 hr hx]
  refine ⟨fun x hx => MODx1_test_iff h0 hr hx, hstep, ?_⟩
  intro v hv
  unfold acceptCount
  have hsplit := two_pow_split w range
  have hset : (Finset.range (2 ^ w)).filter
        (fun x => bounded_rand .DEBIASED_MODx1 w range [x] = some (v, []))
      = (Finset.Ico 0 (0 + range * (2 ^ w / range))).filter (fun x => x % range = v) := by
    ext x
    simp only [Finset.mem_filter, Finset.mem_range, Finset.mem_Ico]
    constructor
    · rintro ⟨hx, h⟩
      rw [hstep x [] hx] at h
      split at h
      · simp [bounded_rand, bounded_rand_DEBIASED_MODx1, DEBIASED_MODx1_loop] at h
      · simp only [Option.some.injEq, Prod.mk.injEq, and_true] at h
        exact ⟨by omega, h⟩
    · rintro ⟨hx, h⟩
      have hx' : x < 2 ^ w := by omega
      refine ⟨hx', ?_⟩
      rw [hstep x [] hx', if_neg (by omega), h]
  rw [hset]
  exact card_filter_Ico_mod h0 _ _ v hv

/-- Witness for C4: 32-bit words, range 7. -/
theorem DEBIASED_MODx1_overhang_witness :
    (∀ x, x < 2 ^ 32 →
      (wsub 32 x (x % 7) > wneg 32 7 ↔ x ≥ 2 ^ 32 - 2 ^ 32 % 7)) ∧
    (∀ (x : Nat) (rng : List Nat), x < 2 ^ 32 →
      bounded_rand .DEBIASED_MODx1 32 7 (x :: rng)
        = if x ≥ 2 ^ 32 - 2 ^ 32 % 7 then bounded_rand .DEBIASED_MODx1 32 7 rng
          else some (x % 7, rng)) ∧
    (∀ v, v < 7 → acceptCount .DEBIASED_MODx1 32 7 v = 2 ^ 32 / 7) :=
  DEBIASED_MODx1_overhang 32 7 (by decide) (by decide)

/-- For `2 ≤ range < 2 ^ w` the divisor of the debiased division variant is
`2 ^ w / range`. -/
theorem DEBIASED_DIV_divisor {w range : Nat} (h2 : 2 ≤ range) (hr : range < 2 ^ w) :
    (wneg w range / range + 1) % 2 ^ w = 2 ^ w / range := by
  have h0 : 0 < range := by omega
  rw [wneg_eq h0]
  have h1 : (2 ^ w - range) / range + 1 = 2 ^ w / range := by
    have h3 : 2 ^ w = (2 ^ w - range) + range := by omega
    conv_rhs => rw [h3, Nat.add_div_right _ h0]
  rw [h1]
  apply Nat.mod_eq_of_lt
  exact Nat.div_lt_self (Nat.two_pow_pos w) h2

theorem div_eq_iff_window {x d v : Nat} (hd : 0 < d) :
    x / d = v ↔ v * d ≤ x ∧ x < v * d + d := by
  constructor
  · intro h
    have h1 := Nat.div_add_mod x d
    have h2 := Nat.mod_lt x hd
    rw [h, Nat.mul_comm] at h1
    omega
  · rintro ⟨h1, h2⟩
    exact Nat.div_eq_of_lt_le h1 (by rw [Nat.succ_mul]; exact h2)

/-- C5: debiased division.  For `2 ≤ range < 2 ^ w` a drawn word `x` is
accepted iff `x / divisor < range` and then returns `x / divisor`; every
`v < range` is returned by exactly `divisor` of the `w`-bit words. -/
theorem DEBIASED_DIV_uniform (w range : Nat) (h2 : 2 ≤ range) (hr : range < 2 ^ w) :
    (∀ (x : Nat) (rng : List Nat),
      bounded_rand .DEBIASED_DIV w range (x :: rng)
        = if x / ((wneg w range / range + 1) % 2 ^ w) < range
          then some (x / ((wneg w range / range + 1) % 2 ^ w), rng)
          else bounded_rand .DEBIASED_DIV w range rng) ∧
    (∀ v, v < range →
      acceptCount .DEBIASED_DIV w range v = (wneg w range / range + 1) % 2 ^ w) := by
  have h0 : 0 < range := by omega
  have hd := DEBIASED_DIV_divisor h2 hr
  have hdpos : 0 < 2 ^ w / range := Nat.div_pos (le_of_lt hr) h0
  have hstep : ∀ (x : Nat) (rng : List Nat),
      bounded_rand .DEBIASED_DIV w range (x :: rng)
        = if x / (2 ^ w / range) < range then some (x / (2 ^ w / range), rng)
          else bounded_rand .DEBIASED_DIV w range rng := by
    intro x rng
    simp only [bounded_rand, bounded_rand_DEBIASED_DIV, hd, DEBIASED_DIV_loop,
      if_neg (Nat.pos_iff_ne_zero.mp hdpos)]
  rw [hd]
  refine ⟨hstep, ?_⟩
  intro v hv
  unfold acceptCount
  have hset : (Finset.range (2 ^ w)).filter
        (fun x => bounded_rand .DEBIASED_DIV w range [x] = some (v, []))
      = Finset.Ico (v * (2 ^ w / range)) (v * (2 ^ w / range) + 2 ^ w / range) := by
    ext x
    simp only [Finset.mem_filter, Finset.mem_range, Finset.mem_Ico, hstep]
    rw [← div_eq_iff_window hdpos]
    constructor
    · rintro ⟨_, h⟩
      split at h
      · simp only [Option.some.injEq, Prod.mk.injEq, and_true] at h
        exact h
      · simp [bounded_rand, bounded_rand_DEBIASED_DIV, hd, DEBIASED_DIV_loop,
          Nat.pos_iff_ne_zero.mp hdpos] at h
    · intro h
      have hw := (div_eq_iff_window hdpos).mp h
      have h3 : v * (2 ^ w / range) + 2 ^ w / range ≤ range * (2 ^ w / range) := by
        rw [← Nat.succ_mul]
        exact Nat.mul_le_mul_right _ hv
      have h4 := Nat.mul_div_le (2 ^ w) range
      refine ⟨by omega, ?_⟩
      rw [h, if_pos hv]
  rw [hset, Nat.card_Ico]
  omega

/-- Witness for C5: 32-bit words, range 7. -/
theorem DEBIASED_DIV_uniform_witness :
    (∀ (x : Nat) (rng : List Nat),
      bounded_rand .DEBIASED_DIV 32 7 (x :: rng)
        = if x / ((wneg 32 7 / 7 + 1) % 2 ^ 32) < 7
          then some (x / ((wneg 32 7 / 7 + 1) % 2 ^ 32), rng)
          else bounded_rand .DEBIASED_DIV 32 7 rng) ∧
    (∀ v, v < 7 → acceptCount .DEBIASED_DIV 32 7 v = (wneg 32 7 / 7 + 1) % 2 ^ 32) :=
  DEBIASED_DIV_uniform 32 7 (by decide) (by decide)

/-! ## The bitmask -/

/-- Leading zeros of `y | 1` inside `n ≥ 1` bits: with `c` the count, `y` fits
in `n - c` bits, and a nonzero `y` needs all of them. -/
theorem clzAux_or_one (n y : Nat) (hy : y < 2 ^ (n + 1)) :
    clzAux (y ||| 1) (n + 1) ≤ n ∧ y < 2 ^ (n + 1 - clzAux (y ||| 1) (n + 1)) ∧
      (1 ≤ y → 2 ^ (n - clzAux (y ||| 1) (n + 1)) ≤ y) := by
  induction n with
  | zero =>
    have h : (y ||| 1).testBit 0 = true := by simp [Nat.testBit_or]
    simp only [clzAux, h, if_true]
    refine ⟨le_refl _, hy, fun h1 => h1⟩
  | succ n ih =>
    have hor : (y ||| 1).testBit (n + 1) = y.testBit (n + 1) := by
      rw [Nat.testBit_or]
      have : Nat.testBit 1 (n + 1) = false :=
        Nat.testBit_lt_two_pow (Nat.one_lt_two_pow (by omega))
      rw [this, Bool.or_false]
    rw [clzAux, hor]
    by_cases hb : y.testBit (n + 1) = true
    · rw [if_pos hb]
      exact ⟨Nat.zero_le _, hy, fun _ => Nat.testBit_implies_ge hb⟩
    · rw [if_neg hb]
      have hb' : y.testBit (n + 1) = false := by simpa using hb
      have hlt : y < 2 ^ (n + 1) := by
        apply Nat.lt_pow_two_of_testBit
        intro i hi
        rcases Nat.eq_or_lt_of_le hi with h | h
        · rw [← h]; exact hb'
        · exact Nat.testBit_lt_two_pow
            (lt_of_lt_of_le hy (Nat.pow_le_pow_right (by decide) h))
      obtain ⟨h1, h2, h3⟩ := ih hlt
      have e1 : n + 1 + 1 - (1 + clzAux (y ||| 1) (n + 1)) = n + 1 - clzAux (y ||| 1) (n + 1) := by
        omega
      have e2 : n + 1 - (1 + clzAux (y ||| 1) (n + 1)) = n - clzAux (y ||| 1) (n + 1) := by
        omega
      rw [e1, e2]
      exact ⟨by omega, h2, h3⟩

/-- Shifting the all-ones word right by `c ≤ w` leaves `w - c` ones. -/
theorem ones_shiftRight {w c : Nat} (hc : c ≤ w) : (2 ^ w - 1) >>> c = 2 ^ (w - c) - 1 := by
  rw [Nat.shiftRight_eq_div_pow]
  have hA : 0 < 2 ^ (w - c) := Nat.two_pow_pos _
  have hB : 0 < 2 ^ c := Nat.two_pow_pos _
  have hW : 0 < 2 ^ w := Nat.two_pow_pos _
  have hAB : 2 ^ (w - c) * 2 ^ c = 2 ^ w := by rw [← pow_add]; congr 1; omega
  apply Nat.div_eq_of_lt_le
  · rw [Nat.sub_mul, hAB]; omega
  · rw [Nat.sub_add_cancel hA, hAB]; omega

/-- The mask of the bitmask variants: there is a bit count `j` with
`1 ≤ j ≤ w` such that the mask is `2 ^ j - 1`, `range - 1` fits in `j` bits,
and for `range ≥ 2` it needs all `j` bits. -/
theorem mask_spec {w range : Nat} (h0 : 0 < range) (hr : range < 2 ^ w) :
    ∃ j, 1 ≤ j ∧ j ≤ w ∧ (2 ^ w - 1) >>> clz w ((range - 1) ||| 1) = 2 ^ j - 1 ∧
      j = w - clz w ((range - 1) ||| 1) ∧
      range - 1 < 2 ^ j ∧ (2 ≤ range → 2 ^ (j - 1) ≤ range - 1) := by
  obtain ⟨n, rfl⟩ : ∃ n, w = n + 1 := by
    cases w with
    | zero => simp at hr; omega
    | succ n => exact ⟨n, rfl⟩
  obtain ⟨h1, h2, h3⟩ := clzAux_or_one n (range - 1) (by omega)
  refine ⟨n + 1 - clz (n + 1) ((range - 1) ||| 1), ?_, ?_, ?_, rfl, ?_, ?_⟩
  · unfold clz; omega
  · omega
  · exact ones_shiftRight (by unfold clz; omega)
  · exact h2
  · intro h
    have e : n + 1 - clz (n + 1) ((range - 1) ||| 1) - 1 = n - clzAux ((range - 1) ||| 1) (n + 1) := by
      unfold clz; omega
    rw [e]
    exact h3 (by omega)

theorem and_mask_eq_mod (x j : Nat) : x &&& (2 ^ j - 1) = x % 2 ^ j :=
  Nat.and_pow_two_sub_one_eq_mod x j

/-- One step of the bitmask loop. -/
theorem BITMASK_step {w range : Nat} (h0 : 0 < range) (hr : range < 2 ^ w)
    (x : Nat) (rng : List Nat) :
    bounded_rand .BITMASK w range (x :: rng)
      = if x &&& ((2 ^ w - 1) >>> clz w ((range - 1) ||| 1)) ≤ range - 1
        then some (x &&& ((2 ^ w - 1) >>> clz w ((range - 1) ||| 1)), rng)
        else bounded_rand .BITMASK w range rng := by
  have hsub : wsub w range 1 = range - 1 := wsub_eq h0 hr
  simp only [bounded_rand, bounded_rand_BITMASK, BITMASK_loop, hsub]
  by_cases h : x &&& ((2 ^ w - 1) >>> clz w ((range - 1) ||| 1)) ≤ range - 1
  · rw [if_pos h, if_neg (by omega)]
  · rw [if_neg h, if_pos (by omega)]

theorem two_pow_div_two_pow {w j : Nat} (hj : j ≤ w) : 2 ^ w / 2 ^ j = 2 ^ (w - j) :=
  Nat.pow_div hj (by decide)

/-- C6: bitmask rejection.  A drawn word `x` is accepted iff
`x & mask ≤ range - 1` and then returns `x & mask`; every `v < range` is
returned by exactly `2 ^ w / (mask + 1)` of the `w`-bit words. -/
theorem BITMASK_uniform (w range : Nat) (h0 : 0 < range) (hr : range < 2 ^ w) :
    (∀ (x : Nat) (rng : List Nat),
      bounded_rand .BITMASK w range (x :: rng)
        = if x &&& ((2 ^ w - 1) >>> clz w ((range - 1) ||| 1)) ≤ range - 1
          then some (x &&& ((2 ^ w - 1) >>> clz w ((range - 1) ||| 1)), rng)
          else bounded_rand .BITMASK w range rng) ∧
    (∀ v, v < range →
      acceptCount .BITMASK w range v
        = 2 ^ w / ((2 ^ w - 1) >>> clz w ((range - 1) ||| 1) + 1)) := by
  refine ⟨BITMASK_step h0 hr, ?_⟩
  intro v hv
  obtain ⟨j, hj1, hjw, hmask, -, hfit, -⟩ := mask_spec h0 hr
  have hpos : 0 < 2 ^ j := Nat.two_pow_pos j
  unfold acceptCount
  rw [hmask, Nat.sub_add_cancel hpos, two_pow_div_two_pow hjw]
  have hsplit : 2 ^ j * 2 ^ (w - j) = 2 ^ w := by rw [← pow_add]; congr 1; omega
  have hset : (Finset.range (2 ^ w)).filter
        (fun x => bounded_rand .BITMASK w range [x] = some (v, []))
      = (Finset.Ico 0 (0 + 2 ^ j * 2 ^ (w - j))).filter (fun x => x % 2 ^ j = v) := by
    ext x
    simp only [Finset.mem_filter, Finset.mem_range, Finset.mem_Ico, BITMASK_step h0 hr,
      hmask, and_mask_eq_mod, hsplit, Nat.zero_add, Nat.zero_le, true_and]
    apply and_congr_right
    intro _
    constructor
    · intro h
      split at h
      · simp only [Option.some.injEq, Prod.mk.injEq, and_true] at h
        exact h
      · simp [bounded_rand, bounded_rand_BITMASK, BITMASK_loop] at h
    · intro h
      rw [h, if_pos (by omega)]
  rw [hset]
  exact card_filter_Ico_mod hpos _ _ v (by omega)

/-- Witness for C6: 32-bit words, range 7. -/
theorem BITMASK_uniform_witness :
    (∀ (x : Nat) (rng : List Nat),
      bounded_rand .BITMASK 32 7 (x :: rng)
        = if x &&& ((2 ^ 32 - 1) >>> clz 32 ((7 - 1) ||| 1)) ≤ 7 - 1
          then some (x &&& ((2 ^ 32 - 1) >>> clz 32 ((7 - 1) ||| 1)), rng)
          else bounded_rand .BITMASK 32 7 rng) ∧
    (∀ v, v < 7 →
      acceptCount .BITMASK 32 7 v
        = 2 ^ 32 / ((2 ^ 32 - 1) >>> clz 32 ((7 - 1) ||| 1) + 1)) :=
  BITMASK_uniform 32 7 (by decide) (by decide)

/-! ## The alternate bitmask variant on range 3 -/

/-- The inner loop of the 32-bit alternate bitmask variant for range 3, entered
with a word `r`: the first retest reads bits 16 and 17; the second retest
shifts the already shifted word by 24 more bits, reads 0 and returns it. -/
theorem BITMASK_ALT_retest_32_3 (fuel r : Nat) (hr : r < 2 ^ 32) :
    BITMASK_ALT_retest 32 2 3 30 (fuel + 2) r 16
      = some (some (if r / 65536 % 4 ≤ 2 then r / 65536 % 4 else 0)) := by
  have h3 : ∀ x : Nat, x &&& 3 = x % 4 := fun x => Nat.and_pow_two_sub_one_eq_mod x 2
  have hz : r >>> 16 >>> 24 = 0 := by
    rw [Nat.shiftRight_eq_div_pow, Nat.shiftRight_eq_div_pow]
    omega
  have h16 : r >>> 16 = r / 65536 := Nat.shiftRight_eq_div_pow r 16
  rw [BITMASK_ALT_retest]
  simp only [show (30 : Nat) ≥ 16 from by decide, if_true, h3]
  by_cases h : r / 65536 % 4 ≤ 2
  · rw [h16, if_pos h, if_pos h]
  · rw [h16, if_neg h, if_neg h]
    rw [BITMASK_ALT_retest]
    have e : 32 - (32 - 16) / 2 = 24 := by decide
    rw [e, ← h16, hz]
    simp

/-- The 32-bit alternate bitmask variant for range 3 on a one-word stream. -/
theorem BITMASK_ALT_32_3 (r : Nat) (hr : r < 2 ^ 32) :
    bounded_rand .BITMASK_ALT 32 3 [r]
      = some (if r % 4 ≤ 2 then r % 4
          else if r / 65536 % 4 ≤ 2 then r / 65536 % 4 else 0, []) := by
  have h3 : ∀ x : Nat, x &&& 3 = x % 4 := fun x => Nat.and_pow_two_sub_one_eq_mod x 2
  have hret : BITMASK_ALT_retest 32 2 3 30 32 r (32 / 2)
      = some (some (if r / 65536 % 4 ≤ 2 then r / 65536 % 4 else 0)) :=
    BITMASK_ALT_retest_32_3 30 r hr
  have e1 : wsub 32 3 1 = 2 := by decide
  have e2 : clz 32 (2 ||| 1) = 30 := by decide
  have e3 : (2 ^ 32 - 1) >>> 30 = 3 := by decide
  simp only [bounded_rand, bounded_rand_BITMASK_ALT, e1, e2, e3, BITMASK_ALT_loop, h3, hret]
  by_cases h : r % 4 ≤ 2
  · rw [if_pos h, if_pos h]
  · rw [if_neg h, if_neg h]

theorem BITMASK_ALT_32_3_one (r : Nat) (hr : r < 2 ^ 32) :
    bounded_rand .BITMASK_ALT 32 3 [r] = some (1, [])
      ↔ (r % 4 = 1 ∨ (r % 4 = 3 ∧ r / 65536 % 4 = 1)) := by
  rw [BITMASK_ALT_32_3 r hr]
  simp only [Option.some.injEq, Prod.mk.injEq, and_true]
  constructor
  · intro h
    split_ifs at h <;> omega
  · intro h
    split_ifs <;> omega

theorem BITMASK_ALT_32_3_zero (r : Nat) (hr : r < 2 ^ 32) :
    bounded_rand .BITMASK_ALT 32 3 [r] = some (0, [])
      ↔ (r % 4 = 0 ∨ (r % 4 = 3 ∧ (r / 65536 % 4 = 0 ∨ r / 65536 % 4 = 3))) := by
  rw [BITMASK_ALT_32_3 r hr]
  simp only [Option.some.injEq, Prod.mk.injEq, and_true]
  constructor
  · intro h
    split_ifs at h <;> omega
  · intro h
    split_ifs <;> omega

/-- C7: the 32-bit alternate bitmask variant is not uniform on range 3.  Fewer
words return 1 than return 0, because a word whose bits 0-1 and 16-17 are
all set returns 0 whatever its remaining bits are; for instance the word
`0x01030003` returns 0 although its bits 24-25 hold the value 1.  The 64-bit
variant does the same with bits 32-33 and 48-49. -/
theorem BITMASK_ALT_not_uniform :
    acceptCount .BITMASK_ALT 32 3 1 < acceptCount .BITMASK_ALT 32 3 0 ∧
    bounded_rand .BITMASK_ALT 32 3 [0x01030003] = some (0, []) ∧
    bounded_rand .BITMASK_ALT 64 3 [0x0001000300000003] = some (0, []) := by
  refine ⟨?_, by decide, by decide⟩
  unfold acceptCount
  let φ : Nat → Nat := fun r => if r % 4 = 1 then r - 1 else r - 65536
  have hinj : Set.InjOn φ ((Finset.range (2 ^ 32)).filter
      (fun r => bounded_rand .BITMASK_ALT 32 3 [r] = some (1, []))) := by
    intro a ha b hb hab
    simp only [Finset.coe_filter, Finset.mem_range, Set.mem_setOf_eq] at ha hb
    have ha' := (BITMASK_ALT_32_3_one a ha.1).mp ha.2
    have hb' := (BITMASK_ALT_32_3_one b hb.1).mp hb.2
    simp only [φ] at hab
    split_ifs at hab <;> omega
  rw [← Finset.card_image_of_injOn hinj]
  apply Finset.card_lt_card
  rw [Finset.ssubset_iff_of_subset]
  · refine ⟨0x30003, ?_, ?_⟩
    · rw [Finset.mem_filter, Finset.mem_range]
      exact ⟨by decide, by decide⟩
    · intro hmem
      rw [Finset.mem_image] at hmem
      obtain ⟨a, ha, hφ⟩ := hmem
      rw [Finset.mem_filter, Finset.mem_range] at ha
      have ha' := (BITMASK_ALT_32_3_one a ha.1).mp ha.2
      simp only [φ] at hφ
      split_ifs at hφ <;> omega
  · intro x hx
    rw [Finset.mem_image] at hx
    obtain ⟨a, ha, hφ⟩ := hx
    rw [Finset.mem_filter, Finset.mem_range] at ha ⊢
    have ha' := (BITMASK_ALT_32_3_one a ha.1).mp ha.2
    simp only [φ] at hφ
    have hlt : x < 2 ^ 32 := by
      have := ha.1
      split_ifs at hφ <;> omega
    refine ⟨hlt, (BITMASK_ALT_32_3_zero x hlt).mpr ?_⟩
    split_ifs at hφ <;> omega

/-! ## Single-draw variants -/

/-- C8, counterexample: on the 32-bit word 1 and range 2 the biased modulo
variant returns 1 and the biased integer multiplication variant returns 0. -/
theorem single_draw_disagree :
    bounded_rand .BIASED_MOD 32 2 [1] = some (1, []) ∧
    bounded_rand .BIASED_INT_MULT 32 2 [1] = some (0, []) ∧
    bounded_rand .BIASED_MOD 32 2 [1] ≠ bounded_rand .BIASED_INT_MULT 32 2 [1] := by
  decide

/-- C8, amended: on a `w`-bit word `x` both single-draw variants consume exactly
that word; biased modulo returns `x % range`, biased integer multiplication
returns `x * range / 2 ^ w`; both values are below `range`; the two results
are equal exactly when `x % range = x * range / 2 ^ w`. -/
theorem single_draw_values (w range x : Nat) (rng : List Nat) (h0 : 0 < range)
    (hr : range < 2 ^ w) (hx : x < 2 ^ w) :
    bounded_rand .BIASED_MOD w range (x :: rng) = some (x % range, rng) ∧
    bounded_rand .BIASED_INT_MULT w range (x :: rng) = some (x * range / 2 ^ w, rng) ∧
    x % range < range ∧ x * range / 2 ^ w < range ∧
    (bounded_rand .BIASED_MOD w range (x :: rng)
        = bounded_rand .BIASED_INT_MULT w range (x :: rng)
      ↔ x % range = x * range / 2 ^ w) := by
  have h1 : bounded_rand .BIASED_MOD w range (x :: rng) = some (x % range, rng) := rfl
  have h2 : bounded_rand .BIASED_INT_MULT w range (x :: rng)
      = some (x * range / 2 ^ w, rng) := by
    simp only [bounded_rand, bounded_rand_BIASED_INT_MULT, hi_mul2w hx hr]
  refine ⟨h1, h2, Nat.mod_lt _ h0, ?_, ?_⟩
  · apply Nat.div_lt_of_lt_mul
    exact Nat.mul_lt_mul_of_pos_right hx h0
  · rw [h1, h2]
    simp only [Option.some.injEq, Prod.mk.injEq, and_true]

/-- Witness for C8 (amended): the 32-bit word `0x80000001` and range 6. -/
theorem single_draw_values_witness :
    bounded_rand .BIASED_MOD 32 6 [0x80000001] = some (0x80000001 % 6, []) ∧
    bounded_rand .BIASED_INT_MULT 32 6 [0x80000001] = some (0x80000001 * 6 / 2 ^ 32, []) ∧
    0x80000001 % 6 < 6 ∧ 0x80000001 * 6 / 2 ^ 32 < 6 ∧
    (bounded_rand .BIASED_MOD 32 6 [0x80000001]
        = bounded_rand .BIASED_INT_MULT 32 6 [0x80000001]
      ↔ 0x80000001 % 6 = 0x80000001 * 6 / 2 ^ 32) :=
  single_draw_values 32 6 0x80000001 [] (by decide) (by decide) (by decide)

/-! ## Range 1 -/

theorem while_lt_zero (r : Nat) (rng : List Nat) : while_lt 0 r rng = some (r, rng) := by
  cases rng <;> simp [while_lt]

theorem while_lo_lt_zero (w range m : Nat) (rng : List Nat) :
    while_lo_lt w range 0 m rng = some (m, rng) := by
  cases rng <;> simp [while_lo_lt]

theorem threshold_MOPT_BOPT_one (w : Nat) : threshold_MOPT_BOPT w 1 = 0 := by
  unfold threshold_MOPT_BOPT
  simp only [Nat.mod_one]
  split
  · rfl
  · omega

theorem hi_word {w x : Nat} (hx : x < 2 ^ w) : hi w x = 0 := by
  unfold hi
  rw [Nat.shiftRight_eq_div_pow, Nat.div_eq_of_lt hx, Nat.zero_mod]

/-- The second retest of the alternate bitmask variant for range 1 reads a word
that has been shifted out completely. -/
theorem BITMASK_ALT_one_32 (x : Nat) (rng : List Nat) (hx : x < 2 ^ 32) :
    bounded_rand .BITMASK_ALT 32 1 (x :: rng) = some (0, rng) := by
  have h1 : ∀ y : Nat, y &&& 1 = y % 2 := fun y => Nat.and_pow_two_sub_one_eq_mod y 1
  have hz : x >>> 16 >>> 24 = 0 := by
    rw [Nat.shiftRight_eq_div_pow, Nat.shiftRight_eq_div_pow]
    omega
  have e1 : wsub 32 1 1 = 0 := by decide
  have e2 : clz 32 (0 ||| 1) = 31 := by decide
  have e3 : (2 ^ 32 - 1) >>> 31 = 1 := by decide
  have e4 : 32 - (32 - 16) / 2 = 24 := by decide
  have hret : BITMASK_ALT_retest 32 0 1 31 32 x (32 / 2)
      = some (some 0) := by
    show BITMASK_ALT_retest 32 0 1 31 (30 + 2) x 16 = some (some 0)
    rw [BITMASK_ALT_retest]
    simp only [show (31 : Nat) ≥ 16 from by decide, if_true, h1]
    by_cases h : x >>> 16 % 2 ≤ 0
    · rw [if_pos h]
      have : x >>> 16 % 2 = 0 := by omega
      rw [this]
    · rw [if_neg h, BITMASK_ALT_retest, e4, hz]
      simp
  simp only [bounded_rand, bounded_rand_BITMASK_ALT, e1, e2, e3, BITMASK_ALT_loop, h1, hret]
  by_cases h : x % 2 ≤ 0
  · rw [if_pos h]
    have : x % 2 = 0 := by omega
    rw [this]
  · rw [if_neg h]

theorem BITMASK_ALT_one_64 (x : Nat) (rng : List Nat) (hx : x < 2 ^ 64) :
    bounded_rand .BITMASK_ALT 64 1 (x :: rng) = some (0, rng) := by
  have h1 : ∀ y : Nat, y &&& 1 = y % 2 := fun y => Nat.and_pow_two_sub_one_eq_mod y 1
  have hz : x >>> 32 >>> 48 = 0 := by
    rw [Nat.shiftRight_eq_div_pow, Nat.shiftRight_eq_div_pow]
    omega
  have e1 : wsub 64 1 1 = 0 := by decide
  have e2 : clz 64 (0 ||| 1) = 63 := by decide
  have e3 : (2 ^ 64 - 1) >>> 63 = 1 := by decide
  have e4 : 64 - (64 - 32) / 2 = 48 := by decide
  have hret : BITMASK_ALT_retest 64 0 1 63 64 x (64 / 2)
      = some (some 0) := by
    show BITMASK_ALT_retest 64 0 1 63 (62 + 2) x 32 = some (some 0)
    rw [BITMASK_ALT_retest]
    simp only [show (63 : Nat) ≥ 32 from by decide, if_true, h1]
    by_cases h : x >>> 32 % 2 ≤ 0
    · rw [if_pos h]
      have : x >>> 32 % 2 = 0 := by omega
      rw [this]
    · rw [if_neg h, BITMASK_ALT_retest, e4, hz]
      simp
  simp only [bounded_rand, bounded_rand_BITMASK_ALT, e1, e2, e3, BITMASK_ALT_loop, h1, hret]
  by_cases h : x % 2 ≤ 0
  · rw [if_pos h]
    have : x % 2 = 0 := by omega
    rw [this]
  · rw [if_neg h]

/-- Range 1 on the variants that draw exactly one word, for any width `w ≥ 2`. -/
theorem range_one_one_draw (a : Variant) (w x : Nat) (rng : List Nat) (hw : 2 ≤ w)
    (hx : x < 2 ^ w) (h1 : a ≠ .DEBIASED_DIV) (h2 : a ≠ .BITMASK) (h3 : a ≠ .BITMASK_ALT) :
    bounded_rand a w 1 (x :: rng) = some (0, rng) := by
  have hr : 1 < 2 ^ w := Nat.one_lt_two_pow (by omega)
  have hb : ¬ 1 ≥ 2 ^ (w - 1) := by
    have : 1 < 2 ^ (w - 1) := Nat.one_lt_two_pow (by omega)
    omega
  have ht : threshold_MOPT w 1 = 0 := by
    rw [threshold_MOPT_eq (by decide) hr, Nat.mod_one]
  have hred : ∀ y, y < 2 ^ w → reduce_MOPT w 1 y = 0 := by
    intro y hy
    rw [reduce_MOPT_eq hy, Nat.mod_one]
  have hmul : mul2w w x 1 = x := by rw [mul2w_eq hx hr, Nat.mul_one]
  have hlo : lo w x = x := Nat.mod_eq_of_lt hx
  have hhi : hi w x = 0 := hi_word hx
  have hsub : wsub w x 0 = x := wsub_eq (Nat.zero_le _) hx
  have hneg : wneg w 1 = 2 ^ w - 1 := wneg_eq (by decide)
  have hnot : ¬ x > 2 ^ w - 1 := by omega
  cases a
  case DEBIASED_DIV => exact absurd rfl h1
  case BITMASK => exact absurd rfl h2
  case BITMASK_ALT => exact absurd rfl h3
  all_goals
    simp [bounded_rand, bounded_rand_BIASED_MOD, bounded_rand_DEBIASED_MODx2,
      bounded_rand_DEBIASED_MODx2_MOPT, bounded_rand_DEBIASED_MODx2_TOPT,
      bounded_rand_DEBIASED_MODx2_TOPT_BOPT, bounded_rand_DEBIASED_MODx2_TOPT_MOPT,
      bounded_rand_DEBIASED_MODx2_TOPT_MOPTx2, bounded_rand_DEBIASED_MODx1,
      bounded_rand_DEBIASED_MODx1_BOPT, bounded_rand_DEBIASED_MODx1_MOPT,
      bounded_rand_BIASED_INT_MULT, bounded_rand_DEBIASED_INT_MULT,
      bounded_rand_DEBIASED_INT_MULT_TOPT, bounded_rand_DEBIASED_INT_MULT_TOPT_BOPT,
      bounded_rand_DEBIASED_INT_MULT_TOPT_MOPT,
      bounded_rand_DEBIASED_INT_MULT_TOPT_MOPT_BOPT,
      DEBIASED_MODx2_loop, DEBIASED_MODx1_loop, DEBIASED_MODx1_MOPT_loop,
      DEBIASED_INT_MULT_loop, Nat.mod_one, ht, hred x hx, hmul, hlo, hhi, hsub, hneg, hnot,
      hb, while_lt_zero, while_lo_lt_zero, threshold_MOPT_BOPT_one]

theorem DEBIASED_DIV_one (w : Nat) (rng : List Nat) :
    bounded_rand .DEBIASED_DIV w 1 rng = some (0, rng) := by
  have hpos : 0 < 2 ^ w := Nat.two_pow_pos w
  have hd : (wneg w 1 / 1 + 1) % 2 ^ w = 0 := by
    rw [wneg_eq (by decide), Nat.div_one, Nat.sub_add_cancel hpos, Nat.mod_self]
  simp only [bounded_rand, bounded_rand_DEBIASED_DIV, hd, if_true]

theorem clzAux_one (n : Nat) : clzAux 1 (n + 1) = n := by
  induction n with
  | zero => simp [clzAux]
  | succ n ih =>
    have hb : Nat.testBit 1 (n + 1) = false :=
      Nat.testBit_lt_two_pow (Nat.one_lt_two_pow (by omega))
    rw [clzAux, hb, ih]
    simp only [Bool.false_eq_true, if_false]
    omega

/-- For range 1 the mask of the bitmask variants is the one-bit mask 1. -/
theorem mask_one {w : Nat} (hw : 1 ≤ w) : (2 ^ w - 1) >>> clz w ((1 - 1) ||| 1) = 1 := by
  obtain ⟨n, rfl⟩ : ∃ n, w = n + 1 := ⟨w - 1, by omega⟩
  have h : (1 - 1) ||| 1 = 1 := by decide
  rw [h]
  unfold clz
  rw [clzAux_one, ones_shiftRight (by omega)]
  have : n + 1 - n = 1 := by omega
  rw [this]
  rfl

theorem BITMASK_one {w : Nat} (hw : 1 ≤ w) (x : Nat) (rng : List Nat) :
    bounded_rand .BITMASK w 1 (x :: rng)
      = if x % 2 = 0 then some (0, rng) else bounded_rand .BITMASK w 1 rng := by
  have hr : 1 < 2 ^ w := Nat.one_lt_two_pow (by omega)
  have h1 : x &&& 1 = x % 2 := Nat.and_pow_two_sub_one_eq_mod x 1
  rw [BITMASK_step (by decide) hr, mask_one hw, h1]
  by_cases h : x % 2 = 0
  · rw [if_pos h, if_pos (by omega), h]
  · rw [if_neg h, if_neg (by omega)]

theorem BITMASK_one_value {w : Nat} (hw : 1 ≤ w) (rng : List Nat) (v : Nat)
    (rest : List Nat) (h : bounded_rand .BITMASK w 1 rng = some (v, rest)) : v = 0 := by
  have hr : 1 < 2 ^ w := Nat.one_lt_two_pow (by omega)
  have hsub : wsub w 1 1 = 1 - 1 := wsub_eq (le_refl 1) hr
  simp only [bounded_rand, bounded_rand_BITMASK, hsub] at h
  have := BITMASK_loop_le _ _ _ h
  omega

/-- C9, counterexample: for range 1 the debiased division variant returns
without drawing, and the bitmask variant rejects a word whose lowest bit is
set and draws a second one. -/
theorem range_one_draw_counts :
    bounded_rand .DEBIASED_DIV 32 1 [5] = some (0, [5]) ∧
    bounded_rand .BITMASK 32 1 [5, 4] = some (0, []) := by
  decide

/-- C9, amended: for range 1 and both widths, on a stream starting with the
`w`-bit word `x`: debiased division returns 0 and consumes no word; bitmask
returns 0 and consumes the words up to and including the first even one;
every other integer-only variant returns 0 and consumes exactly the word `x`. -/
theorem range_one (a : Variant) (w x : Nat) (rng : List Nat) (hw : w = 32 ∨ w = 64)
    (hx : x < 2 ^ w) :
    bounded_rand a w 1 (x :: rng)
        = (match a with
          | .DEBIASED_DIV => some (0, x :: rng)
          | .BITMASK => if x % 2 = 0 then some (0, rng) else bounded_rand .BITMASK w 1 rng
          | _ => some (0, rng)) ∧
      ∀ v rest, bounded_rand a w 1 (x :: rng) = some (v, rest) → v = 0 := by
  have hw1 : 1 ≤ w := by rcases hw with rfl | rfl <;> decide
  have hw2 : 2 ≤ w := by rcases hw with rfl | rfl <;> decide
  have key : ∀ b : Variant, b ≠ .DEBIASED_DIV → b ≠ .BITMASK →
      bounded_rand b w 1 (x :: rng) = some (0, rng) := by
    intro b h1 h2
    by_cases h3 : b = .BITMASK_ALT
    · subst h3
      rcases hw with rfl | rfl
      · exact BITMASK_ALT_one_32 x rng hx
      · exact BITMASK_ALT_one_64 x rng hx
    · exact range_one_one_draw b w x rng hw2 hx h1 h2 h3
  cases a
  case DEBIASED_DIV =>
    refine ⟨DEBIASED_DIV_one w (x :: rng), ?_⟩
    intro v rest h
    rw [DEBIASED_DIV_one] at h
    simp only [Option.some.injEq, Prod.mk.injEq] at h
    exact h.1.symm
  case BITMASK =>
    exact ⟨BITMASK_one hw1 x rng, fun v rest h => BITMASK_one_value hw1 _ v rest h⟩
  all_goals
    refine ⟨key _ (by decide) (by decide), ?_⟩
    intro v rest h
    rw [key _ (by decide) (by decide)] at h
    simp only [Option.some.injEq, Prod.mk.injEq] at h
    exact h.1.symm

/-- Witness for C9 (amended): the 64-bit Lemire variant on the word 5. -/
theorem range_one_witness :
    (64 = 32 ∨ 64 = 64) ∧ 5 < 2 ^ 64 ∧
    bounded_rand .DEBIASED_INT_MULT 64 1 (5 :: [7]) = some (0, [7]) ∧
    ∀ v rest, bounded_rand .DEBIASED_INT_MULT 64 1 (5 :: [7]) = some (v, rest) → v = 0 :=
  ⟨Or.inr rfl, by decide, range_one .DEBIASED_INT_MULT 64 5 [7] (Or.inr rfl) (by decide)⟩

/-! ## Rejected words -/

theorem card_filter_lt {N t : Nat} (h : t ≤ N) :
    ((Finset.range N).filter (fun r => r < t)).card = t := by
  have : (Finset.range N).filter (fun r => r < t) = Finset.range t := by
    ext r
    simp only [Finset.mem_filter, Finset.mem_range]
    omega
  rw [this, Finset.card_range]

theorem card_filter_ge {N a : Nat} :
    ((Finset.range N).filter (fun r => a ≤ r)).card = N - a := by
  have : (Finset.range N).filter (fun r => a ≤ r) = Finset.Ico a N := by
    ext r
    simp only [Finset.mem_filter, Finset.mem_range, Finset.mem_Ico]
    omega
  rw [this, Nat.card_Ico]

/-- The x2 family rejects a word exactly when it is below the threshold. -/
theorem reject_iff_MODx2 {a : Variant} {w range : Nat} (h0 : 0 < range) (hr : range < 2 ^ w)
    (ha : a = .DEBIASED_MODx2 ∨ a = .DEBIASED_MODx2_MOPT ∨ a = .DEBIASED_MODx2_TOPT ∨
      a = .DEBIASED_MODx2_TOPT_MOPT ∨ a = .DEBIASED_MODx2_TOPT_MOPTx2 ∨
      (a = .DEBIASED_MODx2_TOPT_BOPT ∧ range < 2 ^ (w - 1))) (r : Nat) :
    bounded_rand a w range [r] = none ↔ r < 2 ^ w % range := by
  have ht : 2 ^ w % range < range := Nat.mod_lt _ h0
  rcases ha with rfl | rfl | rfl | rfl | rfl | ⟨rfl, hb⟩
  · simp only [bounded_rand, bounded_rand_DEBIASED_MODx2, DEBIASED_MODx2_loop, wneg_mod h0 hr]
    split_ifs <;> simp <;> omega
  · simp only [bounded_rand, bounded_rand_DEBIASED_MODx2_MOPT, DEBIASED_MODx2_loop,
      threshold_MOPT_eq h0 hr]
    split_ifs <;> simp <;> omega
  · simp only [bounded_rand, bounded_rand_DEBIASED_MODx2_TOPT, while_lt, wneg_mod h0 hr]
    split_ifs <;> simp <;> omega
  · simp only [bounded_rand, bounded_rand_DEBIASED_MODx2_TOPT_MOPT, while_lt,
      threshold_MOPT_eq h0 hr]
    split_ifs <;> simp <;> omega
  · simp only [bounded_rand, bounded_rand_DEBIASED_MODx2_TOPT_MOPTx2, while_lt,
      threshold_MOPT_eq h0 hr]
    split_ifs <;> simp <;> omega
  · simp only [bounded_rand, bounded_rand_DEBIASED_MODx2_TOPT_BOPT, while_lt, wneg_mod h0 hr,
      if_neg (not_le.mpr hb)]
    split_ifs <;> simp <;> omega

/-- The BOPT variants on a range of at least half the word space reject a word
exactly when it is not below `range`. -/
theorem reject_iff_BOPT {a : Variant} {w range : Nat}
    (ha : a = .DEBIASED_MODx2_TOPT_BOPT ∨ a = .DEBIASED_MODx1_BOPT ∨
      a = .DEBIASED_INT_MULT_TOPT_BOPT ∨ a = .DEBIASED_INT_MULT_TOPT_MOPT_BOPT)
    (hb : range ≥ 2 ^ (w - 1)) (r : Nat) :
    bounded_rand a w range [r] = none ↔ range ≤ r := by
  rcases ha with rfl | rfl | rfl | rfl
  · simp only [bounded_rand, bounded_rand_DEBIASED_MODx2_TOPT_BOPT, while_ge, if_pos hb]
    split_ifs <;> simp <;> omega
  · simp only [bounded_rand, bounded_rand_DEBIASED_MODx1_BOPT, do_while_ge, if_pos hb]
    split_ifs <;> simp <;> omega
  · simp only [bounded_rand, bounded_rand_DEBIASED_INT_MULT_TOPT_BOPT, while_ge, if_pos hb]
    split_ifs <;> simp <;> omega
  · simp only [bounded_rand, bounded_rand_DEBIASED_INT_MULT_TOPT_MOPT_BOPT, while_ge,
      if_pos hb]
    split_ifs <;> simp <;> omega

/-- The x1 family rejects a word exactly when it lies in the overhang. -/
theorem reject_iff_MODx1 {a : Variant} {w range : Nat} (h0 : 0 < range) (hr : range < 2 ^ w)
    (ha : a = .DEBIASED_MODx1 ∨ a = .DEBIASED_MODx1_MOPT ∨
      (a = .DEBIASED_MODx1_BOPT ∧ range < 2 ^ (w - 1))) (x : Nat) (hx : x < 2 ^ w) :
    bounded_rand a w range [x] = none ↔ 2 ^ w - 2 ^ w % range ≤ x := by
  have htest := MODx1_test_iff h0 hr hx
  rcases ha with rfl | rfl | ⟨rfl, hb⟩
  · simp only [bounded_rand, bounded_rand_DEBIASED_MODx1, DEBIASED_MODx1_loop, htest]
    split_ifs <;> simp <;> omega
  · simp only [bounded_rand, bounded_rand_DEBIASED_MODx1_MOPT, DEBIASED_MODx1_MOPT_loop,
      reduce_MOPT_eq hx, htest]
    split_ifs <;> simp <;> omega
  · simp only [bounded_rand, bounded_rand_DEBIASED_MODx1_BOPT, DEBIASED_MODx1_loop, htest,
      if_neg (not_le.mpr hb)]
    split_ifs <;> simp <;> omega

/-- The threshold computed by the MOPT_BOPT variant on a range below half the
word space. -/
theorem threshold_MOPT_BOPT_eq {w range : Nat} (h0 : 0 < range) (hr : range < 2 ^ w)
    (hb : range < 2 ^ (w - 1)) : threshold_MOPT_BOPT w range = 2 ^ w % range := by
  have hw : w ≠ 0 := by
    rintro rfl
    simp at hr
    omega
  have h2 : 2 ^ w = 2 * 2 ^ (w - 1) := by
    rw [← pow_succ']
    congr 1
    omega
  have hge : wneg w range ≥ range := by rw [wneg_eq h0]; omega
  have h := threshold_MOPT_eq h0 hr
  unfold threshold_MOPT at h
  simp only [if_pos hge] at h
  exact h

/-- Lemire's family rejects a word exactly when the low word of the product
is below the threshold. -/
theorem reject_iff_INT_MULT {a : Variant} {w range : Nat} (h0 : 0 < range)
    (hr : range < 2 ^ w)
    (ha : a = .DEBIASED_INT_MULT ∨ a = .DEBIASED_INT_MULT_TOPT ∨
      a = .DEBIASED_INT_MULT_TOPT_MOPT ∨
      (a = .DEBIASED_INT_MULT_TOPT_BOPT ∧ range < 2 ^ (w - 1)) ∨
      (a = .DEBIASED_INT_MULT_TOPT_MOPT_BOPT ∧ range < 2 ^ (w - 1)))
    (x : Nat) (hx : x < 2 ^ w) :
    bounded_rand a w range [x] = none ↔ x * range % 2 ^ w < 2 ^ w % range := by
  have ht : 2 ^ w % range < range := Nat.mod_lt _ h0
  rcases ha with rfl | rfl | rfl | ⟨rfl, hb⟩ | ⟨rfl, hb⟩
  · simp only [bounded_rand, bounded_rand_DEBIASED_INT_MULT, DEBIASED_INT_MULT_loop,
      wneg_mod h0 hr, lo_mul2w hx hr]
    split_ifs <;> simp <;> omega
  · simp only [bounded_rand, bounded_rand_DEBIASED_INT_MULT_TOPT, while_lo_lt,
      wneg_mod h0 hr, lo_mul2w hx hr]
    split_ifs <;> simp <;> omega
  · simp only [bounded_rand, bounded_rand_DEBIASED_INT_MULT_TOPT_MOPT, while_lo_lt,
      threshold_MOPT_eq h0 hr, lo_mul2w hx hr]
    split_ifs <;> simp <;> omega
  · simp only [bounded_rand, bounded_rand_DEBIASED_INT_MULT_TOPT_BOPT, while_lo_lt,
      wneg_mod h0 hr, lo_mul2w hx hr, if_neg (not_le.mpr hb)]
    split_ifs <;> simp <;> omega
  · simp only [bounded_rand, bounded_rand_DEBIASED_INT_MULT_TOPT_MOPT_BOPT, while_lo_lt,
      threshold_MOPT_BOPT_eq h0 hr hb, lo_mul2w hx hr, if_neg (not_le.mpr hb)]
    split_ifs <;> simp <;> omega

/-- Counting a set of words through the value each of them yields. -/
theorem card_of_fibers {N n c : Nat} (P : Nat → Prop) [DecidablePred P] (f : Nat → Nat)
    (hf : ∀ x, x < N → P x → f x < n)
    (hfib : ∀ v, v < n → ((Finset.range N).filter (fun x => P x ∧ f x = v)).card = c) :
    ((Finset.range N).filter P).card = n * c := by
  have H : ∀ x ∈ (Finset.range N).filter P, f x ∈ Finset.range n := by
    intro x hx
    rw [Finset.mem_filter, Finset.mem_range] at hx
    exact Finset.mem_range.mpr (hf x hx.1 hx.2)
  rw [Finset.card_eq_sum_card_fiberwise H]
  have hsum : ∀ v ∈ Finset.range n,
      (((Finset.range N).filter P).filter (fun x => f x = v)).card = c := by
    intro v hv
    rw [Finset.filter_filter]
    exact hfib v (Finset.mem_range.mp hv)
  rw [Finset.sum_congr rfl hsum, Finset.sum_const, Finset.card_range, smul_eq_mul]

/-- The complement of a filter inside the `N` words. -/
theorem card_filter_not {N : Nat} (P : Nat → Prop) [DecidablePred P] :
    ((Finset.range N).filter (fun x => ¬ P x)).card
      = N - ((Finset.range N).filter P).card := by
  have h := Finset.filter_card_add_filter_neg_card_eq_card (s := Finset.range N) P
  rw [Finset.card_range] at h
  omega

/-- Lemire's window: the words whose product has high word `v` and low word
at least the threshold. -/
theorem card_lemire_fiber {w range v : Nat} (h0 : 0 < range) (hv : v < range) :
    ((Finset.range (2 ^ w)).filter
      (fun x => 2 ^ w % range ≤ x * range % 2 ^ w ∧ x * range / 2 ^ w = v)).card
      = 2 ^ w / range := by
  have hN : 0 < 2 ^ w := Nat.two_pow_pos w
  have hset : (Finset.range (2 ^ w)).filter
        (fun x => 2 ^ w % range ≤ x * range % 2 ^ w ∧ x * range / 2 ^ w = v)
      = (Finset.range (2 ^ w)).filter
        (fun x => v * 2 ^ w + 2 ^ w % range ≤ x * range ∧
          x * range < v * 2 ^ w + 2 ^ w % range + range * (2 ^ w / range)) := by
    apply Finset.filter_congr
    intro x _
    have e : v * 2 ^ w + 2 ^ w % range + range * (2 ^ w / range) = v * 2 ^ w + 2 ^ w := by
      rw [Nat.add_assoc, two_pow_split]
    rw [e, ← hi_lo_window hN]
  rw [hset]
  apply card_filter_mul_window h0
  intro x hx
  rw [Nat.add_assoc, two_pow_split] at hx
  have h1 : v * 2 ^ w + 2 ^ w ≤ range * 2 ^ w := by
    rw [← Nat.succ_mul]
    exact Nat.mul_le_mul_right _ hv
  have h2 : x * range < 2 ^ w * range := by rw [Nat.mul_comm (2 ^ w)]; omega
  exact Nat.lt_of_mul_lt_mul_right h2

/-- Lemire's rejection region holds exactly `2 ^ w % range` words. -/
theorem card_lemire_reject {w range : Nat} (h0 : 0 < range) :
    ((Finset.range (2 ^ w)).filter (fun x => x * range % 2 ^ w < 2 ^ w % range)).card
      = 2 ^ w % range := by
  have hacc : ((Finset.range (2 ^ w)).filter
      (fun x => 2 ^ w % range ≤ x * range % 2 ^ w)).card = range * (2 ^ w / range) := by
    apply card_of_fibers _ (fun x => x * range / 2 ^ w)
    · intro x hx _
      apply Nat.div_lt_of_lt_mul
      exact Nat.mul_lt_mul_of_pos_right hx h0
    · intro v hv
      exact card_lemire_fiber h0 hv
  have hset : (Finset.range (2 ^ w)).filter (fun x => x * range % 2 ^ w < 2 ^ w % range)
      = (Finset.range (2 ^ w)).filter (fun x => ¬ 2 ^ w % range ≤ x * range % 2 ^ w) := by
    apply Finset.filter_congr
    intro x _
    exact not_le.symm
  rw [hset, card_filter_not, hacc]
  have := two_pow_split w range
  omega

theorem rejectCount_MODx2 {a : Variant} {w range : Nat} (h0 : 0 < range) (hr : range < 2 ^ w)
    (ha : a = .DEBIASED_MODx2 ∨ a = .DEBIASED_MODx2_MOPT ∨ a = .DEBIASED_MODx2_TOPT ∨
      a = .DEBIASED_MODx2_TOPT_MOPT ∨ a = .DEBIASED_MODx2_TOPT_MOPTx2 ∨
      (a = .DEBIASED_MODx2_TOPT_BOPT ∧ range < 2 ^ (w - 1))) :
    rejectCount a w range = 2 ^ w % range := by
  unfold rejectCount
  have hset : (Finset.range (2 ^ w)).filter (fun r => bounded_rand a w range [r] = none)
      = (Finset.range (2 ^ w)).filter (fun r => r < 2 ^ w % range) := by
    apply Finset.filter_congr
    intro r _
    exact reject_iff_MODx2 h0 hr ha r
  rw [hset]
  exact card_filter_lt (le_trans (Nat.mod_le _ _) (le_refl _))

theorem rejectCount_MODx1 {a : Variant} {w range : Nat} (h0 : 0 < range) (hr : range < 2 ^ w)
    (ha : a = .DEBIASED_MODx1 ∨ a = .DEBIASED_MODx1_MOPT ∨
      (a = .DEBIASED_MODx1_BOPT ∧ range < 2 ^ (w - 1))) :
    rejectCount a w range = 2 ^ w % range := by
  unfold rejectCount
  have hset : (Finset.range (2 ^ w)).filter (fun r => bounded_rand a w range [r] = none)
      = (Finset.range (2 ^ w)).filter (fun r => 2 ^ w - 2 ^ w % range ≤ r) := by
    apply Finset.filter_congr
    intro r hr'
    exact reject_iff_MODx1 h0 hr ha r (Finset.mem_range.mp hr')
  rw [hset, card_filter_ge]
  have := Nat.mod_le (2 ^ w) range
  omega

theorem rejectCount_INT_MULT {a : Variant} {w range : Nat} (h0 : 0 < range)
    (hr : range < 2 ^ w)
    (ha : a = .DEBIASED_INT_MULT ∨ a = .DEBIASED_INT_MULT_TOPT ∨
      a = .DEBIASED_INT_MULT_TOPT_MOPT ∨
      (a = .DEBIASED_INT_MULT_TOPT_BOPT ∧ range < 2 ^ (w - 1)) ∨
      (a = .DEBIASED_INT_MULT_TOPT_MOPT_BOPT ∧ range < 2 ^ (w - 1))) :
    rejectCount a w range = 2 ^ w % range := by
  unfold rejectCount
  have hset : (Finset.range (2 ^ w)).filter (fun r => bounded_rand a w range [r] = none)
      = (Finset.range (2 ^ w)).filter (fun x => x * range % 2 ^ w < 2 ^ w % range) := by
    apply Finset.filter_congr
    intro r hr'
    exact reject_iff_INT_MULT h0 hr ha r (Finset.mem_range.mp hr')
  rw [hset]
  exact card_lemire_reject h0

theorem rejectCount_BOPT {a : Variant} {w range : Nat}
    (ha : a = .DEBIASED_MODx2_TOPT_BOPT ∨ a = .DEBIASED_MODx1_BOPT ∨
      a = .DEBIASED_INT_MULT_TOPT_BOPT ∨ a = .DEBIASED_INT_MULT_TOPT_MOPT_BOPT)
    (hb : range ≥ 2 ^ (w - 1)) :
    rejectCount a w range = 2 ^ w - range := by
  unfold rejectCount
  have hset : (Finset.range (2 ^ w)).filter (fun r => bounded_rand a w range [r] = none)
      = (Finset.range (2 ^ w)).filter (fun r => range ≤ r) := by
    apply Finset.filter_congr
    intro r _
    exact reject_iff_BOPT ha hb r
  rw [hset, card_filter_ge]

theorem rejectCount_DIV {w range : Nat} (h0 : 0 < range) (hr : range < 2 ^ w) :
    rejectCount .DEBIASED_DIV w range = 2 ^ w % range := by
  unfold rejectCount
  by_cases h1 : range = 1
  · subst h1
    have hset : (Finset.range (2 ^ w)).filter
        (fun r => bounded_rand .DEBIASED_DIV w 1 [r] = none) = ∅ := by
      apply Finset.filter_false_of_mem
      intro r _
      rw [DEBIASED_DIV_one]
      simp
    rw [hset, Finset.card_empty, Nat.mod_one]
  · have h2 : 2 ≤ range := by omega
    have hd := DEBIASED_DIV_divisor h2 hr
    have hdpos : 0 < 2 ^ w / range := Nat.div_pos (le_of_lt hr) h0
    have hset : (Finset.range (2 ^ w)).filter
          (fun r => bounded_rand .DEBIASED_DIV w range [r] = none)
        = (Finset.range (2 ^ w)).filter (fun r => range * (2 ^ w / range) ≤ r) := by
      apply Finset.filter_congr
      intro r _
      simp only [bounded_rand, bounded_rand_DEBIASED_DIV, hd, DEBIASED_DIV_loop,
        if_neg (Nat.pos_iff_ne_zero.mp hdpos)]
      rw [← Nat.le_div_iff_mul_le hdpos]
      split_ifs <;> simp <;> omega
    rw [hset, card_filter_ge]
    have := two_pow_split w range
    omega

/-- The bitmask variant rejects `2 ^ w - range * 2 ^ (w - j)` words, `j` being
the number of bits of the mask. -/
theorem rejectCount_BITMASK {w range : Nat} (h0 : 0 < range) (hr : range < 2 ^ w) :
    ∃ j, 1 ≤ j ∧ j ≤ w ∧ j = w - clz w ((range - 1) ||| 1) ∧ range - 1 < 2 ^ j ∧
      (2 ≤ range → 2 ^ (j - 1) ≤ range - 1) ∧
      rejectCount .BITMASK w range = 2 ^ w - range * 2 ^ (w - j) := by
  obtain ⟨j, hj1, hjw, hmask, hjeq, hfit, hlow⟩ := mask_spec h0 hr
  refine ⟨j, hj1, hjw, hjeq, hfit, hlow, ?_⟩
  have hpos : 0 < 2 ^ j := Nat.two_pow_pos j
  have hsplit : 2 ^ j * 2 ^ (w - j) = 2 ^ w := by rw [← pow_add]; congr 1; omega
  unfold rejectCount
  have hset : (Finset.range (2 ^ w)).filter
        (fun r => bounded_rand .BITMASK w range [r] = none)
      = (Finset.range (2 ^ w)).filter (fun r => ¬ r % 2 ^ j ≤ range - 1) := by
    apply Finset.filter_congr
    intro r _
    rw [BITMASK_step h0 hr, hmask, and_mask_eq_mod]
    split_ifs with h
    · simp [h]
    · simp [h, bounded_rand, bounded_rand_BITMASK, BITMASK_loop]
  have hacc : ((Finset.range (2 ^ w)).filter (fun r => r % 2 ^ j ≤ range - 1)).card
      = range * 2 ^ (w - j) := by
    apply card_of_fibers _ (fun r => r % 2 ^ j)
    · intro x _ h
      omega
    · intro v hv
      have hfs : (Finset.range (2 ^ w)).filter (fun x => x % 2 ^ j ≤ range - 1 ∧ x % 2 ^ j = v)
          = (Finset.Ico 0 (0 + 2 ^ j * 2 ^ (w - j))).filter (fun x => x % 2 ^ j = v) := by
        ext x
        simp only [Finset.mem_filter, Finset.mem_range, Finset.mem_Ico, hsplit, Nat.zero_add,
          Nat.zero_le, true_and]
        constructor
        · rintro ⟨h1, _, h3⟩; exact ⟨h1, h3⟩
        · rintro ⟨h1, h3⟩; exact ⟨h1, by omega, h3⟩
      rw [hfs]
      exact card_filter_Ico_mod hpos _ _ v (by omega)
  rw [hset, card_filter_not, hacc]

theorem rejectCount_BITMASK_lt {w range : Nat} (h2 : 2 ≤ range) (hr : range < 2 ^ w) :
    rejectCount .BITMASK w range < 2 ^ (w - 1) := by
  obtain ⟨j, hj1, hjw, -, hfit, hlow, hrc⟩ := rejectCount_BITMASK (by omega) hr
  have hA := hlow h2
  have hM : 0 < 2 ^ (w - j) := Nat.two_pow_pos _
  have e1 : 2 ^ w = 2 * (2 ^ (j - 1) * 2 ^ (w - j)) := by
    rw [← pow_add, ← pow_succ']
    congr 1
    omega
  have e2 : 2 ^ (w - 1) = 2 ^ (j - 1) * 2 ^ (w - j) := by
    rw [← pow_add]
    congr 1
    omega
  have e3 : (2 ^ (j - 1) + 1) * 2 ^ (w - j) ≤ range * 2 ^ (w - j) :=
    Nat.mul_le_mul_right _ (by omega)
  rw [Nat.add_mul, Nat.one_mul] at e3
  rw [hrc, e1, e2]
  omega

theorem rejectCount_BITMASK_one {w : Nat} (hw : 1 ≤ w) :
    rejectCount .BITMASK w 1 = 2 ^ (w - 1) := by
  have hr : 1 < 2 ^ w := Nat.one_lt_two_pow (by omega)
  obtain ⟨j, hj1, hjw, hjeq, -, -, hrc⟩ := rejectCount_BITMASK (by decide) hr
  have hj : j = 1 := by
    obtain ⟨n, rfl⟩ : ∃ n, w = n + 1 := ⟨w - 1, by omega⟩
    have h : (1 - 1) ||| 1 = 1 := by decide
    rw [h] at hjeq
    unfold clz at hjeq
    rw [clzAux_one] at hjeq
    omega
  subst hj
  have e1 : 2 ^ w = 2 * 2 ^ (w - 1) := by
    rw [← pow_succ']
    congr 1
    omega
  rw [hrc, Nat.one_mul, e1]
  omega

/-- C10, counterexample: the 32-bit bitmask variant on range 1 rejects exactly
half of the words (those whose lowest bit is set), and the 32-bit BOPT
variants on range `2 ^ 31` reject exactly half of the words (those with the
top bit set); neither count is strictly below `2 ^ 31`. -/
theorem rejectCount_half :
    ¬ rejectCount .BITMASK 32 1 < 2 ^ (32 - 1) ∧
    ¬ rejectCount .DEBIASED_MODx2_TOPT_BOPT 32 (2 ^ 31) < 2 ^ (32 - 1) := by
  constructor
  · rw [rejectCount_BITMASK_one (by decide)]
    exact lt_irrefl _
  · rw [rejectCount_BOPT (Or.inl rfl) (by decide)]
    decide

/-- C10, amended: every rejection-sampling variant rejects at most half of
the `w`-bit words on a draw, and exactly half only for bitmask on range 1
and for a BOPT variant on range `2 ^ (w - 1)`; otherwise strictly fewer. -/
theorem rejectCount_le_half (a : Variant) (w range : Nat) (h0 : 0 < range)
    (hr : range < 2 ^ w) (h1 : a ≠ .BIASED_MOD) (h2 : a ≠ .BIASED_INT_MULT)
    (h3 : a ≠ .BITMASK_ALT) :
    rejectCount a w range ≤ 2 ^ (w - 1) ∧
    (rejectCount a w range = 2 ^ (w - 1) ↔
      ((a = .BITMASK ∧ range = 1) ∨
        ((a = .DEBIASED_MODx2_TOPT_BOPT ∨ a = .DEBIASED_MODx1_BOPT ∨
            a = .DEBIASED_INT_MULT_TOPT_BOPT ∨ a = .DEBIASED_INT_MULT_TOPT_MOPT_BOPT) ∧
          range = 2 ^ (w - 1)))) := by
  have ht := two_pow_mod_lt_half h0 hr
  have hw : 1 ≤ w := by
    rcases Nat.eq_zero_or_pos w with rfl | h
    · simp at hr; omega
    · exact h
  have e1 : 2 ^ w = 2 * 2 ^ (w - 1) := by
    rw [← pow_succ']
    congr 1
    omega
  -- a variant whose rejection region has `2 ^ w % range` words
  have small : ∀ b : Variant, rejectCount b w range = 2 ^ w % range →
      (b = .BITMASK → False) →
      ((b = .DEBIASED_MODx2_TOPT_BOPT ∨ b = .DEBIASED_MODx1_BOPT ∨
          b = .DEBIASED_INT_MULT_TOPT_BOPT ∨ b = .DEBIASED_INT_MULT_TOPT_MOPT_BOPT) →
        range < 2 ^ (w - 1)) →
      rejectCount b w range ≤ 2 ^ (w - 1) ∧
      (rejectCount b w range = 2 ^ (w - 1) ↔
        ((b = .BITMASK ∧ range = 1) ∨
          ((b = .DEBIASED_MODx2_TOPT_BOPT ∨ b = .DEBIASED_MODx1_BOPT ∨
              b = .DEBIASED_INT_MULT_TOPT_BOPT ∨ b = .DEBIASED_INT_MULT_TOPT_MOPT_BOPT) ∧
            range = 2 ^ (w - 1)))) := by
    intro b hb hnb hbopt
    rw [hb]
    refine ⟨le_of_lt ht, ?_⟩
    constructor
    · intro h; omega
    · rintro (⟨h, _⟩ | ⟨h, h'⟩)
      · exact (hnb h).elim
      · have := hbopt h
        omega
  -- a BOPT variant
  have bopt : ∀ b : Variant,
      (b = .DEBIASED_MODx2_TOPT_BOPT ∨ b = .DEBIASED_MODx1_BOPT ∨
        b = .DEBIASED_INT_MULT_TOPT_BOPT ∨ b = .DEBIASED_INT_MULT_TOPT_MOPT_BOPT) →
      (range < 2 ^ (w - 1) → rejectCount b w range = 2 ^ w % range) →
      rejectCount b w range ≤ 2 ^ (w - 1) ∧
      (rejectCount b w range = 2 ^ (w - 1) ↔
        ((b = .BITMASK ∧ range = 1) ∨
          ((b = .DEBIASED_MODx2_TOPT_BOPT ∨ b = .DEBIASED_MODx1_BOPT ∨
              b = .DEBIASED_INT_MULT_TOPT_BOPT ∨ b = .DEBIASED_INT_MULT_TOPT_MOPT_BOPT) ∧
            range = 2 ^ (w - 1)))) := by
    intro b hb hsmall
    by_cases hlt : range < 2 ^ (w - 1)
    · refine small b (hsmall hlt) ?_ (fun _ => hlt)
      rintro rfl
      rcases hb with h | h | h | h <;> exact absurd h (by decide)
    · have hge : range ≥ 2 ^ (w - 1) := not_lt.mp hlt
      rw [rejectCount_BOPT hb hge]
      refine ⟨by omega, ?_⟩
      constructor
      · intro h
        exact Or.inr ⟨hb, by omega⟩
      · rintro (⟨_, h⟩ | ⟨_, h⟩)
        · have : 1 ≤ 2 ^ (w - 1) := Nat.two_pow_pos _
          omega
        · omega
  cases a
  case BIASED_MOD => exact absurd rfl h1
  case BIASED_INT_MULT => exact absurd rfl h2
  case BITMASK_ALT => exact absurd rfl h3
  case DEBIASED_DIV =>
    exact small _ (rejectCount_DIV h0 hr) (by decide) (fun h => absurd h (by decide))
  case DEBIASED_MODx2 =>
    exact small _ (rejectCount_MODx2 h0 hr (Or.inl rfl)) (by decide) (fun h => absurd h (by decide))
  case DEBIASED_MODx2_MOPT =>
    exact small _ (rejectCount_MODx2 h0 hr (Or.inr (Or.inl rfl))) (by decide) (fun h => absurd h (by decide))
  case DEBIASED_MODx2_TOPT =>
    exact small _ (rejectCount_MODx2 h0 hr (Or.inr (Or.inr (Or.inl rfl)))) (by decide) (fun h => absurd h (by decide))
  case DEBIASED_MODx2_TOPT_MOPT =>
    exact small _ (rejectCount_MODx2 h0 hr (Or.inr (Or.inr (Or.inr (Or.inl rfl))))) (by decide) (fun h => absurd h (by decide))
  case DEBIASED_MODx2_TOPT_MOPTx2 =>
    exact small _ (rejectCount_MODx2 h0 hr (Or.inr (Or.inr (Or.inr (Or.inr (Or.inl rfl)))))) (by decide) (fun h => absurd h (by decide))
  case DEBIASED_MODx1 =>
    exact small _ (rejectCount_MODx1 h0 hr (Or.inl rfl)) (by decide) (fun h => absurd h (by decide))
  case DEBIASED_MODx1_MOPT =>
    exact small _ (rejectCount_MODx1 h0 hr (Or.inr (Or.inl rfl))) (by decide) (fun h => absurd h (by decide))
  case DEBIASED_INT_MULT =>
    exact small _ (rejectCount_INT_MULT h0 hr (Or.inl rfl)) (by decide) (fun h => absurd h (by decide))
  case DEBIASED_INT_MULT_TOPT =>
    exact small _ (rejectCount_INT_MULT h0 hr (Or.inr (Or.inl rfl))) (by decide) (fun h => absurd h (by decide))
  case DEBIASED_INT_MULT_TOPT_MOPT =>
    exact small _ (rejectCount_INT_MULT h0 hr (Or.inr (Or.inr (Or.inl rfl)))) (by decide) (fun h => absurd h (by decide))
  case DEBIASED_MODx2_TOPT_BOPT =>
    exact bopt _ (Or.inl rfl) (fun h => rejectCount_MODx2 h0 hr
      (Or.inr (Or.inr (Or.inr (Or.inr (Or.inr ⟨rfl, h⟩))))))
  case DEBIASED_MODx1_BOPT =>
    exact bopt _ (Or.inr (Or.inl rfl)) (fun h => rejectCount_MODx1 h0 hr (Or.inr (Or.inr ⟨rfl, h⟩)))
  case DEBIASED_INT_MULT_TOPT_BOPT =>
    exact bopt _ (Or.inr (Or.inr (Or.inl rfl))) (fun h => rejectCount_INT_MULT h0 hr
      (Or.inr (Or.inr (Or.inr (Or.inl ⟨rfl, h⟩)))))
  case DEBIASED_INT_MULT_TOPT_MOPT_BOPT =>
    exact bopt _ (Or.inr (Or.inr (Or.inr rfl))) (fun h => rejectCount_INT_MULT h0 hr
      (Or.inr (Or.inr (Or.inr (Or.inr ⟨rfl, h⟩)))))
  case BITMASK =>
    by_cases hone : range = 1
    · subst hone
      rw [rejectCount_BITMASK_one hw]
      exact ⟨le_refl _, fun _ => Or.inl ⟨rfl, rfl⟩, fun _ => rfl⟩
    · have hlt := rejectCount_BITMASK_lt (by omega : 2 ≤ range) hr
      refine ⟨le_of_lt hlt, ?_⟩
      constructor
      · intro h; omega
      · rintro (⟨_, h⟩ | ⟨h, _⟩)
        · exact absurd h hone
        · rcases h with h | h | h | h <;> exact absurd h (by decide)

/-- Witness for C10 (amended): 32-bit Lemire with TOPT and BOPT on range 7. -/
theorem rejectCount_le_half_witness :
    rejectCount .DEBIASED_INT_MULT_TOPT_BOPT 32 7 ≤ 2 ^ (32 - 1) ∧
    (rejectCount .DEBIASED_INT_MULT_TOPT_BOPT 32 7 = 2 ^ (32 - 1) ↔
      ((Variant.DEBIASED_INT_MULT_TOPT_BOPT = .BITMASK ∧ 7 = 1) ∨
        ((Variant.DEBIASED_INT_MULT_TOPT_BOPT = .DEBIASED_MODx2_TOPT_BOPT ∨
            Variant.DEBIASED_INT_MULT_TOPT_BOPT = .DEBIASED_MODx1_BOPT ∨
            Variant.DEBIASED_INT_MULT_TOPT_BOPT = .DEBIASED_INT_MULT_TOPT_BOPT ∨
            Variant.DEBIASED_INT_MULT_TOPT_BOPT = .DEBIASED_INT_MULT_TOPT_MOPT_BOPT) ∧
          7 = 2 ^ (32 - 1)))) :=
  rejectCount_le_half .DEBIASED_INT_MULT_TOPT_BOPT 32 7 (by decide) (by decide)
    (by decide) (by decide) (by decide)

/-! ## Thresholds and divisor -/

/-- C11: the `w`-bit expression `(-range) % range` equals `2 ^ w % range` and
is therefore below `range`; it is the threshold with which the debiased
modulo x2 and Lemire variants run their loops. -/
theorem wraparound_threshold (w range : Nat) (h0 : 0 < range) (hr : range < 2 ^ w) :
    wneg w range % range = 2 ^ w % range ∧ wneg w range % range < range ∧
    (∀ rng, bounded_rand .DEBIASED_MODx2 w range rng
      = DEBIASED_MODx2_loop range (2 ^ w % range) rng) ∧
    (∀ rng, bounded_rand .DEBIASED_INT_MULT w range rng
      = DEBIASED_INT_MULT_loop w range (2 ^ w % range) rng) := by
  have h : wneg w range % range = 2 ^ w % range := by
    unfold wneg
    have hlt : 2 ^ w - range < 2 ^ w := by omega
    rw [Nat.mod_eq_of_lt hlt]
    have hsplit : 2 ^ w = (2 ^ w - range) + range := by omega
    conv_rhs => rw [hsplit, Nat.add_mod_right]
  refine ⟨h, Nat.mod_lt _ h0, ?_, ?_⟩
  · intro rng
    simp only [bounded_rand, bounded_rand_DEBIASED_MODx2, h]
  · intro rng
    simp only [bounded_rand, bounded_rand_DEBIASED_INT_MULT, h]

/-- Witness for C11: 64-bit words, range 52. -/
theorem wraparound_threshold_witness :
    wneg 64 52 % 52 = 2 ^ 64 % 52 ∧ wneg 64 52 % 52 < 52 ∧
    (∀ rng, bounded_rand .DEBIASED_MODx2 64 52 rng
      = DEBIASED_MODx2_loop 52 (2 ^ 64 % 52) rng) ∧
    (∀ rng, bounded_rand .DEBIASED_INT_MULT 64 52 rng
      = DEBIASED_INT_MULT_loop 64 52 (2 ^ 64 % 52) rng) :=
  wraparound_threshold 64 52 (by decide) (by decide)

/-- The debiased division variant in terms of its `divisor`. -/
theorem DEBIASED_DIV_unfold (w range : Nat) (rng : List Nat) :
    bounded_rand .DEBIASED_DIV w range rng
      = if divisor w range = 0 then some (0, rng)
        else DEBIASED_DIV_loop range (divisor w range) rng := rfl

/-- The divisor is `2 ^ w / range` reduced to a `w`-bit word. -/
theorem divisor_eq {w range : Nat} (h0 : 0 < range) (hr : range < 2 ^ w) :
    divisor w range = 2 ^ w / range % 2 ^ w := by
  unfold divisor
  rw [wneg_eq h0]
  have h3 : 2 ^ w = (2 ^ w - range) + range := by omega
  have h1 : (2 ^ w - range) / range + 1 = 2 ^ w / range := by
    conv_rhs => rw [h3, Nat.add_div_right _ h0]
  rw [h1]

/-- C12, counterexample: for 32-bit words and range 7 the code computes the
divisor 613566756, while the formula `(2^W mod range)/range + 1` gives 1. -/
theorem divisor_ne_spec :
    divisor 32 7 = 613566756 ∧ divisor_spec 32 7 = 1 ∧
    divisor 32 7 ≠ divisor_spec 32 7 := by
  decide

/-- C12, amended: the divisor computed by the debiased division variant is
`((-range) / range + 1)` as a `w`-bit word, which is `2 ^ w / range` reduced
modulo `2 ^ w`; it coincides with `(2^W mod range)/range + 1` exactly for
the ranges above `2 ^ (w - 1)`. -/
theorem divisor_value (w range : Nat) (h0 : 0 < range) (hr : range < 2 ^ w) :
    (∀ rng, bounded_rand .DEBIASED_DIV w range rng
      = if divisor w range = 0 then some (0, rng)
        else DEBIASED_DIV_loop range (divisor w range) rng) ∧
    divisor w range = (wneg w range / range + 1) % 2 ^ w ∧
    divisor w range = 2 ^ w / range % 2 ^ w ∧
    (divisor w range = divisor_spec w range ↔ 2 ^ (w - 1) < range) := by
  refine ⟨fun rng => DEBIASED_DIV_unfold w range rng, rfl, divisor_eq h0 hr, ?_⟩
  have hw : w ≠ 0 := by
    rintro rfl
    simp at hr
    omega
  have e1 : 2 ^ w = 2 * 2 ^ (w - 1) := by
    rw [← pow_succ']
    congr 1
    omega
  have hone : 1 < 2 ^ w := Nat.one_lt_two_pow hw
  have hspec : divisor_spec w range = 1 := by
    unfold divisor_spec
    rw [Nat.div_eq_of_lt (Nat.mod_lt _ h0), Nat.zero_add, Nat.mod_eq_of_lt hone]
  rw [hspec, divisor_eq h0 hr]
  by_cases h1 : range = 1
  · subst h1
    rw [Nat.div_one, Nat.mod_self]
    have : 1 ≤ 2 ^ (w - 1) := Nat.two_pow_pos _
    constructor
    · intro h; omega
    · intro h; omega
  · have hlt : 2 ^ w / range < 2 ^ w := Nat.div_lt_self (Nat.two_pow_pos w) (by omega)
    rw [Nat.mod_eq_of_lt hlt, div_eq_iff_window h0, Nat.one_mul]
    constructor
    · intro h; omega
    · intro h; omega

/-- Witness for C12 (amended): 32-bit words, range 7. -/
theorem divisor_value_witness :
    (∀ rng, bounded_rand .DEBIASED_DIV 32 7 rng
      = if divisor 32 7 = 0 then some (0, rng)
        else DEBIASED_DIV_loop 7 (divisor 32 7) rng) ∧
    divisor 32 7 = (wneg 32 7 / 7 + 1) % 2 ^ 32 ∧
    divisor 32 7 = 2 ^ 32 / 7 % 2 ^ 32 ∧
    (divisor 32 7 = divisor_spec 32 7 ↔ 2 ^ (32 - 1) < 7) :=
  divisor_value 32 7 (by decide) (by decide)

/-! ## The TOPT variants -/

/-- The loop `while (r < t) r = rng();` followed by `return r % range;` is the
x2 rejection loop run on the stream with `r` put back in front. -/
theorem while_lt_eq_loop (range t : Nat) :
    ∀ (rng : List Nat) (r : Nat),
      (while_lt t r rng).map (fun p => (p.1 % range, p.2))
        = DEBIASED_MODx2_loop range t (r :: rng) := by
  intro rng
  induction rng with
  | nil =>
    intro r
    simp only [while_lt, DEBIASED_MODx2_loop]
    by_cases h : r < t
    · rw [if_pos h, if_neg (by omega)]; rfl
    · rw [if_neg h, if_pos (by omega)]; rfl
  | cons r' rng ih =>
    intro r
    rw [while_lt, DEBIASED_MODx2_loop]
    by_cases h : r < t
    · rw [if_pos h, if_neg (by omega)]
      exact ih r'
    · rw [if_neg h, if_pos (by omega)]; rfl

/-- C13: the TOPT variant of debiased modulo x2 returns the same value and
leaves the same words unconsumed as the plain variant, on every stream. -/
theorem TOPT_preserves_MODx2 (w range : Nat) (rng : List Nat) (h0 : 0 < range) :
    bounded_rand .DEBIASED_MODx2_TOPT w range rng
      = bounded_rand .DEBIASED_MODx2 w range rng := by
  have ht : wneg w range % range < range := Nat.mod_lt _ h0
  cases rng with
  | nil => rfl
  | cons r rng =>
    simp only [bounded_rand, bounded_rand_DEBIASED_MODx2_TOPT, bounded_rand_DEBIASED_MODx2]
    by_cases h : r < range
    · rw [if_pos h]
      exact while_lt_eq_loop range _ rng r
    · rw [if_neg h, DEBIASED_MODx2_loop, if_pos (by omega)]

/-- Witness for C13: 32-bit words, range 7, a stream whose first two words
are rejected. -/
theorem TOPT_preserves_MODx2_witness :
    bounded_rand .DEBIASED_MODx2_TOPT 32 7 [1, 3, 0xfffffffe, 9]
      = bounded_rand .DEBIASED_MODx2 32 7 [1, 3, 0xfffffffe, 9] ∧
    bounded_rand .DEBIASED_MODx2 32 7 [1, 3, 0xfffffffe, 9] = some (2, [9]) :=
  ⟨TOPT_preserves_MODx2 32 7 [1, 3, 0xfffffffe, 9] (by decide), by decide⟩

/-- The loop `while (l < t) { x = rng(); m = x * range; l = uint32_t(m); }`
followed by `return m >> 32;` continues Lemire's loop from the product `m`. -/
theorem while_lo_lt_eq_loop (w range t : Nat) :
    ∀ (rng : List Nat) (m : Nat),
      (while_lo_lt w range t m rng).map (fun p => (hi w p.1, p.2))
        = if lo w m < t then DEBIASED_INT_MULT_loop w range t rng
          else some (hi w m, rng) := by
  intro rng
  induction rng with
  | nil =>
    intro m
    simp only [while_lo_lt, DEBIASED_INT_MULT_loop]
    by_cases h : lo w m < t
    · rw [if_pos h, if_pos h]; rfl
    · rw [if_neg h, if_neg h]; rfl
  | cons x rng ih =>
    intro m
    rw [while_lo_lt]
    by_cases h : lo w m < t
    · rw [if_pos h, if_pos h, ih, DEBIASED_INT_MULT_loop]
    · rw [if_neg h, if_neg h]; rfl

/-- C14: the TOPT variant of Lemire's algorithm returns the same value and
leaves the same words unconsumed as the canonical variant, on every stream;
the threshold is `2 ^ w % range`, and a low word that is at least `range` is
at least the threshold. -/
theorem TOPT_preserves_INT_MULT (w range : Nat) (rng : List Nat) (h0 : 0 < range)
    (hr : range < 2 ^ w) :
    bounded_rand .DEBIASED_INT_MULT_TOPT w range rng
        = bounded_rand .DEBIASED_INT_MULT w range rng ∧
      wneg w range % range = 2 ^ w % range ∧ ∀ l, range ≤ l → 2 ^ w % range ≤ l := by
  have ht : wneg w range % range < range := Nat.mod_lt _ h0
  have ht' : 2 ^ w % range < range := Nat.mod_lt _ h0
  refine ⟨?_, wneg_mod h0 hr, fun l hl => by omega⟩
  cases rng with
  | nil => rfl
  | cons x rng =>
    simp only [bounded_rand, bounded_rand_DEBIASED_INT_MULT_TOPT,
      bounded_rand_DEBIASED_INT_MULT]
    rw [DEBIASED_INT_MULT_loop]
    by_cases h : lo w (mul2w w x range) < range
    · rw [if_pos h]
      exact while_lo_lt_eq_loop w range _ rng _
    · rw [if_neg h, if_neg (by omega)]

/-- Witness for C14: 32-bit words, range 7, a stream whose first word is
rejected. -/
theorem TOPT_preserves_INT_MULT_witness :
    (bounded_rand .DEBIASED_INT_MULT_TOPT 32 7 [0, 0x80000000, 9]
        = bounded_rand .DEBIASED_INT_MULT 32 7 [0, 0x80000000, 9] ∧
      wneg 32 7 % 7 = 2 ^ 32 % 7 ∧ ∀ l, 7 ≤ l → 2 ^ 32 % 7 ≤ l) ∧
    bounded_rand .DEBIASED_INT_MULT 32 7 [0, 0x80000000, 9] = some (3, [9]) :=
  ⟨TOPT_preserves_INT_MULT 32 7 [0, 0x80000000, 9] (by decide) (by decide), by decide⟩

/-! ## The MOPT and BOPT variants -/

/-- C15: the conditional-subtraction threshold of the MOPT variants is
`2 ^ w % range`, so each MOPT variant behaves like the variant computing the
threshold with two modulo operations; in the MOPT_BOPT variant, whose first
subtraction is unconditional, the same holds for `range < 2 ^ (w - 1)`, where
the subtraction does not wrap. -/
theorem MOPT_threshold (w range : Nat) (h0 : 0 < range) (hr : range < 2 ^ w) :
    threshold_MOPT w range = 2 ^ w % range ∧
    (range < 2 ^ (w - 1) →
      range ≤ wneg w range ∧ wsub w (wneg w range) range = wneg w range - range ∧
        threshold_MOPT_BOPT w range = 2 ^ w % range) ∧
    (∀ rng, bounded_rand .DEBIASED_MODx2_MOPT w range rng
      = bounded_rand .DEBIASED_MODx2 w range rng) ∧
    (∀ rng, bounded_rand .DEBIASED_MODx2_TOPT_MOPT w range rng
      = bounded_rand .DEBIASED_MODx2_TOPT w range rng) ∧
    (∀ rng, bounded_rand .DEBIASED_INT_MULT_TOPT_MOPT w range rng
      = bounded_rand .DEBIASED_INT_MULT_TOPT w range rng) ∧
    (∀ rng, bounded_rand .DEBIASED_INT_MULT_TOPT_MOPT_BOPT w range rng
      = bounded_rand .DEBIASED_INT_MULT_TOPT_BOPT w range rng) := by
  have ht := threshold_MOPT_eq h0 hr
  have hm := wneg_mod h0 hr
  refine ⟨ht, ?_, ?_, ?_, ?_, ?_⟩
  · intro hb
    have hw : w ≠ 0 := by
      rintro rfl
      simp at hr
      omega
    have h2 : 2 ^ w = 2 * 2 ^ (w - 1) := by
      rw [← pow_succ']
      congr 1
      omega
    have hneg : wneg w range = 2 ^ w - range := wneg_eq h0
    have hge : range ≤ wneg w range := by omega
    exact ⟨hge, wsub_eq hge (by omega), threshold_MOPT_BOPT_eq h0 hr hb⟩
  · intro rng
    simp only [bounded_rand, bounded_rand_DEBIASED_MODx2_MOPT, bounded_rand_DEBIASED_MODx2,
      ht, hm]
  · intro rng
    cases rng with
    | nil => rfl
    | cons r rng =>
      simp only [bounded_rand, bounded_rand_DEBIASED_MODx2_TOPT_MOPT,
        bounded_rand_DEBIASED_MODx2_TOPT, ht, hm]
  · intro rng
    cases rng with
    | nil => rfl
    | cons r rng =>
      simp only [bounded_rand, bounded_rand_DEBIASED_INT_MULT_TOPT_MOPT,
        bounded_rand_DEBIASED_INT_MULT_TOPT, ht, hm]
  · intro rng
    cases rng with
    | nil => rfl
    | cons r rng =>
      simp only [bounded_rand, bounded_rand_DEBIASED_INT_MULT_TOPT_MOPT_BOPT,
        bounded_rand_DEBIASED_INT_MULT_TOPT_BOPT]
      by_cases hb : range ≥ 2 ^ (w - 1)
      · rw [if_pos hb, if_pos hb]
      · rw [if_neg hb, if_neg hb, threshold_MOPT_BOPT_eq h0 hr (by omega), hm]

/-- Witness for C15: 32-bit words, range 7. -/
theorem MOPT_threshold_witness :
    threshold_MOPT 32 7 = 2 ^ 32 % 7 ∧
    (7 < 2 ^ (32 - 1) →
      7 ≤ wneg 32 7 ∧ wsub 32 (wneg 32 7) 7 = wneg 32 7 - 7 ∧
        threshold_MOPT_BOPT 32 7 = 2 ^ 32 % 7) ∧
    (∀ rng, bounded_rand .DEBIASED_MODx2_MOPT 32 7 rng
      = bounded_rand .DEBIASED_MODx2 32 7 rng) ∧
    (∀ rng, bounded_rand .DEBIASED_MODx2_TOPT_MOPT 32 7 rng
      = bounded_rand .DEBIASED_MODx2_TOPT 32 7 rng) ∧
    (∀ rng, bounded_rand .DEBIASED_INT_MULT_TOPT_MOPT 32 7 rng
      = bounded_rand .DEBIASED_INT_MULT_TOPT 32 7 rng) ∧
    (∀ rng, bounded_rand .DEBIASED_INT_MULT_TOPT_MOPT_BOPT 32 7 rng
      = bounded_rand .DEBIASED_INT_MULT_TOPT_BOPT 32 7 rng) :=
  MOPT_threshold 32 7 (by decide) (by decide)

theorem DEBIASED_MODx1_MOPT_loop_eq (w range : Nat) :
    ∀ rng : List Nat, wordsOK w rng →
      DEBIASED_MODx1_MOPT_loop w range rng = DEBIASED_MODx1_loop w range rng := by
  intro rng
  induction rng with
  | nil => intro _; rfl
  | cons x rng ih =>
    intro hws
    rw [DEBIASED_MODx1_MOPT_loop, DEBIASED_MODx1_loop, reduce_MOPT_eq (wordsOK_cons hws).1,
      ih (wordsOK_cons hws).2]

/-- C16: on every stream of `w`-bit words the MOPTx2 variant returns the same
value and leaves the same words as the TOPT_MOPT variant, and the x1 MOPT
variant the same as the x1 variant; the conditional subtraction computes
`r % range`. -/
theorem MOPT_output_reduction (w range : Nat) (rng : List Nat) (hws : wordsOK w rng) :
    bounded_rand .DEBIASED_MODx2_TOPT_MOPTx2 w range rng
      = bounded_rand .DEBIASED_MODx2_TOPT_MOPT w range rng ∧
    bounded_rand .DEBIASED_MODx1_MOPT w range rng
      = bounded_rand .DEBIASED_MODx1 w range rng ∧
    ∀ r, r < 2 ^ w → reduce_MOPT w range r = r % range := by
  refine ⟨?_, DEBIASED_MODx1_MOPT_loop_eq w range rng hws, fun r hr => reduce_MOPT_eq hr⟩
  cases rng with
  | nil => rfl
  | cons r rng =>
    simp only [bounded_rand, bounded_rand_DEBIASED_MODx2_TOPT_MOPTx2,
      bounded_rand_DEBIASED_MODx2_TOPT_MOPT]
    by_cases h : r < range
    · rw [if_pos h, if_pos h]
      cases ho : while_lt (threshold_MOPT w range) r rng with
      | none => rfl
      | some p =>
        have hp := while_lt_word rng r p.1 p.2 (wordsOK_cons hws).1 (wordsOK_cons hws).2 ho
        simp only [Option.map_some', reduce_MOPT_eq hp]
    · rw [if_neg h, if_neg h, reduce_MOPT_eq (wordsOK_cons hws).1]

/-- Witness for C16: 32-bit words, range 7, a stream whose first word is
rejected by the x2 variants and whose second word by the x1 variants. -/
theorem MOPT_output_reduction_witness :
    (bounded_rand .DEBIASED_MODx2_TOPT_MOPTx2 32 7 [1, 0xfffffffe, 23]
      = bounded_rand .DEBIASED_MODx2_TOPT_MOPT 32 7 [1, 0xfffffffe, 23] ∧
    bounded_rand .DEBIASED_MODx1_MOPT 32 7 [1, 0xfffffffe, 23]
      = bounded_rand .DEBIASED_MODx1 32 7 [1, 0xfffffffe, 23] ∧
    ∀ r, r < 2 ^ 32 → reduce_MOPT 32 7 r = r % 7) ∧
    bounded_rand .DEBIASED_MODx2_TOPT_MOPTx2 32 7 [1, 0xfffffffe, 23] = some (2, [23]) :=
  ⟨MOPT_output_reduction 32 7 [1, 0xfffffffe, 23] (by decide), by decide⟩

theorem do_while_ge_first (range : Nat) :
    ∀ (pre : List Nat) (x : Nat) (rest : List Nat), (∀ y ∈ pre, range ≤ y) → x < range →
      do_while_ge range (pre ++ x :: rest) = some (x, rest) := by
  intro pre
  induction pre with
  | nil =>
    intro x rest _ hx
    rw [List.nil_append, do_while_ge, if_neg (by omega)]
  | cons y pre ih =>
    intro x rest hpre hx
    rw [List.cons_append, do_while_ge, if_pos (hpre y (List.mem_cons_self _ _))]
    exact ih x rest (fun z hz => hpre z (List.mem_cons_of_mem _ hz)) hx

theorem do_while_ge_none (range : Nat) :
    ∀ rng : List Nat, (∀ y ∈ rng, range ≤ y) → do_while_ge range rng = none := by
  intro rng
  induction rng with
  | nil => intro _; rfl
  | cons y rng ih =>
    intro h
    rw [do_while_ge, if_pos (h y (List.mem_cons_self _ _))]
    exact ih (fun z hz => h z (List.mem_cons_of_mem _ hz))

/-- The loop `while (r >= range) r = rng();` entered with a drawn word `r` is
the loop `do { r = rng(); } while (r >= range);` with `r` put back. -/
theorem while_ge_eq_do_while (range : Nat) :
    ∀ (rng : List Nat) (r : Nat), while_ge range r rng = do_while_ge range (r :: rng) := by
  intro rng
  induction rng with
  | nil =>
    intro r
    simp only [while_ge, do_while_ge]
  | cons r' rng ih =>
    intro r
    rw [while_ge, do_while_ge]
    by_cases h : r ≥ range
    · rw [if_pos h, if_pos h]
      exact ih r'
    · rw [if_neg h, if_neg h]

/-- On a range of at least half the word space every BOPT variant is the
plain rejection loop. -/
theorem BOPT_eq_do_while {a : Variant} {w range : Nat}
    (ha : a = .DEBIASED_MODx2_TOPT_BOPT ∨ a = .DEBIASED_MODx1_BOPT ∨
      a = .DEBIASED_INT_MULT_TOPT_BOPT ∨ a = .DEBIASED_INT_MULT_TOPT_MOPT_BOPT)
    (hb : 2 ^ (w - 1) ≤ range) (rng : List Nat) :
    bounded_rand a w range rng = do_while_ge range rng := by
  have hb' : range ≥ 2 ^ (w - 1) := hb
  rcases ha with rfl | rfl | rfl | rfl
  · cases rng with
    | nil => rfl
    | cons r rng =>
      simp only [bounded_rand, bounded_rand_DEBIASED_MODx2_TOPT_BOPT, if_pos hb']
      exact while_ge_eq_do_while range rng r
  · simp only [bounded_rand, bounded_rand_DEBIASED_MODx1_BOPT, if_pos hb']
  · cases rng with
    | nil => rfl
    | cons r rng =>
      simp only [bounded_rand, bounded_rand_DEBIASED_INT_MULT_TOPT_BOPT, if_pos hb']
      exact while_ge_eq_do_while range rng r
  · cases rng with
    | nil => rfl
    | cons r rng =>
      simp only [bounded_rand, bounded_rand_DEBIASED_INT_MULT_TOPT_MOPT_BOPT, if_pos hb']
      exact while_ge_eq_do_while range rng r

/-- C17: for a BOPT variant and `2 ^ (w - 1) ≤ range`, the call returns the
first word of the stream that is below `range`, unmodified, and consumes the
words up to and including it; on a stream without such a word it does not
return. -/
theorem BOPT_plain_rejection (a : Variant) (w range : Nat)
    (ha : a = .DEBIASED_MODx2_TOPT_BOPT ∨ a = .DEBIASED_MODx1_BOPT ∨
      a = .DEBIASED_INT_MULT_TOPT_BOPT ∨ a = .DEBIASED_INT_MULT_TOPT_MOPT_BOPT)
    (hb : 2 ^ (w - 1) ≤ range) :
    (∀ (pre : List Nat) (x : Nat) (rest : List Nat), (∀ y ∈ pre, range ≤ y) → x < range →
      bounded_rand a w range (pre ++ x :: rest) = some (x, rest)) ∧
    (∀ rng : List Nat, (∀ y ∈ rng, range ≤ y) → bounded_rand a w range rng = none) := by
  constructor
  · intro pre x rest hpre hx
    rw [BOPT_eq_do_while ha hb]
    exact do_while_ge_first range pre x rest hpre hx
  · intro rng h
    rw [BOPT_eq_do_while ha hb]
    exact do_while_ge_none range rng h

/-- Witness for C17: the 64-bit Lemire BOPT variant on range `2 ^ 64 - 52` (the
bound of the 64-bit Test 5). -/
theorem BOPT_plain_rejection_witness :
    bounded_rand .DEBIASED_INT_MULT_TOPT_MOPT_BOPT 64 (2 ^ 64 - 52)
      ([2 ^ 64 - 1, 2 ^ 64 - 52] ++ 12345 :: [6, 7]) = some (12345, [6, 7]) :=
  (BOPT_plain_rejection .DEBIASED_INT_MULT_TOPT_MOPT_BOPT 64 (2 ^ 64 - 52)
    (Or.inr (Or.inr (Or.inr rfl))) (by decide)).1 [2 ^ 64 - 1, 2 ^ 64 - 52] 12345 [6, 7]
    (by decide) (by decide)

/-! ## The mask and the retests of the bitmask variants -/

/-- C18: the mask of the bitmask variants.  For `2 ≤ range < 2 ^ w` it is
`2 ^ k - 1` with `k` the bit length of `range - 1`, the smallest value of
that form that is at least `range - 1`; for range 1 it is the one-bit mask. -/
theorem BITMASK_mask_value (w range : Nat) (h0 : 0 < range) (hr : range < 2 ^ w) :
    (∀ rng, bounded_rand .BITMASK w range rng
      = BITMASK_loop (wsub w range 1) (BITMASK_mask w range) rng) ∧
    (∀ rng, bounded_rand .BITMASK_ALT w range rng
      = BITMASK_ALT_loop w (wsub w range 1) (BITMASK_mask w range)
          (clz w (wsub w range 1 ||| 1)) rng) ∧
    (2 ≤ range →
      BITMASK_mask w range = 2 ^ Nat.size (range - 1) - 1 ∧
        range - 1 ≤ BITMASK_mask w range ∧
        ∀ k, range - 1 ≤ 2 ^ k - 1 → BITMASK_mask w range ≤ 2 ^ k - 1) ∧
    (range = 1 → BITMASK_mask w range = 1) := by
  have hsub : wsub w range 1 = range - 1 := wsub_eq h0 hr
  refine ⟨fun _ => rfl, fun _ => rfl, ?_, ?_⟩
  · intro h2
    obtain ⟨j, hj1, hjw, hmask, -, hfit, hlow⟩ := mask_spec h0 hr
    have hlow' := hlow h2
    have hsize : Nat.size (range - 1) = j := by
      have h1 : Nat.size (range - 1) ≤ j := Nat.size_le.mpr hfit
      have h3 : j - 1 < Nat.size (range - 1) := Nat.lt_size.mpr hlow'
      omega
    have hm : BITMASK_mask w range = 2 ^ j - 1 := by
      unfold BITMASK_mask
      rw [hsub, hmask]
    rw [hm, hsize]
    refine ⟨rfl, by omega, ?_⟩
    intro k hk
    have hkpos : 0 < 2 ^ k := Nat.two_pow_pos k
    have h1 : Nat.size (range - 1) ≤ k := Nat.size_le.mpr (by omega)
    have h3 : 2 ^ j ≤ 2 ^ k := Nat.pow_le_pow_right (by decide) (by omega)
    omega
  · rintro rfl
    have hw : 1 ≤ w := by
      rcases Nat.eq_zero_or_pos w with rfl | h
      · simp at hr
      · exact h
    unfold BITMASK_mask
    rw [hsub]
    exact mask_one hw

/-- Witness for C18: 32-bit words, range 300, whose mask is 511. -/
theorem BITMASK_mask_value_witness :
    ((∀ rng, bounded_rand .BITMASK 32 300 rng
      = BITMASK_loop (wsub 32 300 1) (BITMASK_mask 32 300) rng) ∧
    (∀ rng, bounded_rand .BITMASK_ALT 32 300 rng
      = BITMASK_ALT_loop 32 (wsub 32 300 1) (BITMASK_mask 32 300)
          (clz 32 (wsub 32 300 1 ||| 1)) rng) ∧
    (2 ≤ 300 →
      BITMASK_mask 32 300 = 2 ^ Nat.size (300 - 1) - 1 ∧
        300 - 1 ≤ BITMASK_mask 32 300 ∧
        ∀ k, 300 - 1 ≤ 2 ^ k - 1 → BITMASK_mask 32 300 ≤ 2 ^ k - 1) ∧
    (300 = 1 → BITMASK_mask 32 300 = 1)) ∧ BITMASK_mask 32 300 = 511 :=
  ⟨BITMASK_mask_value 32 300 (by decide) (by decide), by decide⟩

/-- C19: the retests of the alternate bitmask variant.  When the mask leaves at
least 24 (32-bit) resp. 48 (64-bit) leading zeros, the inner loop entered
with a word `r` tests the field at offset 16 resp. 32 and then, the word
having been shifted twice, the value 0, which it returns; the fields at
offsets 24, 28, 30, 31 resp. 48, 56, 60, 62, 63 are never read.  For the
32-bit word `0x01030003` and range 3 the field at offset 24 holds 1, and the
loop returns 0. -/
theorem BITMASK_ALT_retest_offsets :
    (∀ range mask z fuel r : Nat,
      BITMASK_ALT_retest 32 range mask (24 + z) (fuel + 2) (r % 2 ^ 32) 16
        = some (some (if (r % 2 ^ 32) >>> 16 &&& mask ≤ range
            then (r % 2 ^ 32) >>> 16 &&& mask else 0))) ∧
    (∀ range mask z fuel r : Nat,
      BITMASK_ALT_retest 64 range mask (48 + z) (fuel + 2) (r % 2 ^ 64) 32
        = some (some (if (r % 2 ^ 64) >>> 32 &&& mask ≤ range
            then (r % 2 ^ 64) >>> 32 &&& mask else 0))) ∧
    BITMASK_ALT_retest 32 2 3 30 32 0x01030003 (32 / 2) = some (some 0) ∧
    0x01030003 >>> 24 &&& 3 = 1 ∧
    bounded_rand .BITMASK_ALT 32 3 [0x01030003] = some (0, []) := by
  refine ⟨?_, ?_, by decide, by decide, by decide⟩
  · intro range mask z fuel r
    have hlt : r % 2 ^ 32 < 2 ^ 32 := Nat.mod_lt _ (by decide)
    have hz : (r % 2 ^ 32) >>> 16 >>> 24 = 0 := by
      rw [Nat.shiftRight_eq_div_pow, Nat.shiftRight_eq_div_pow]
      omega
    have e : 32 - (32 - 16) / 2 = 24 := by decide
    rw [BITMASK_ALT_retest, if_pos (by omega)]
    by_cases h : (r % 2 ^ 32) >>> 16 &&& mask ≤ range
    · simp only [h, if_true]
    · simp only [h, if_false]
      rw [BITMASK_ALT_retest, if_pos (by omega), e, hz]
      simp
  · intro range mask z fuel r
    have hlt : r % 2 ^ 64 < 2 ^ 64 := Nat.mod_lt _ (by decide)
    have hz : (r % 2 ^ 64) >>> 32 >>> 48 = 0 := by
      rw [Nat.shiftRight_eq_div_pow, Nat.shiftRight_eq_div_pow]
      omega
    have e : 64 - (64 - 32) / 2 = 48 := by decide
    rw [BITMASK_ALT_retest, if_pos (by omega)]
    by_cases h : (r % 2 ^ 64) >>> 32 &&& mask ≤ range
    · simp only [h, if_true]
    · simp only [h, if_false]
      rw [BITMASK_ALT_retest, if_pos (by omega), e, hz]
      simp

/-! ## The workloads -/

theorem mem_countdown {n x : Nat} : x ∈ countdown n ↔ 0 < x ∧ x ≤ n := by
  induction n with
  | zero =>
    simp only [countdown, List.not_mem_nil, false_iff]
    omega
  | succ n ih =>
    rw [countdown, List.mem_cons, ih]
    omega

/-- The outer loop of Test 3 visits the powers of two from the current one up
to `2 ^ (w - 1)`. -/
theorem mem_bit_loop {w x : Nat} :
    ∀ fuel k : Nat, w ≤ k + fuel →
      (x ∈ bit_loop w fuel (2 ^ k % 2 ^ w) ↔ ∃ b, k ≤ b ∧ b < w ∧ x = 2 ^ b) := by
  intro fuel
  induction fuel with
  | zero =>
    intro k hk
    simp only [bit_loop, List.not_mem_nil, false_iff]
    rintro ⟨b, h1, h2, -⟩
    omega
  | succ fuel ih =>
    intro k hk
    rw [bit_loop]
    by_cases hkw : k < w
    · have hlt : 2 ^ k < 2 ^ w := Nat.pow_lt_pow_right (by decide) hkw
      have hpos : 2 ^ k ≠ 0 := Nat.pos_iff_ne_zero.mp (Nat.two_pow_pos k)
      have hshift : (2 ^ k <<< 1) % 2 ^ w = 2 ^ (k + 1) % 2 ^ w := by
        rw [Nat.shiftLeft_eq, Nat.pow_one, pow_succ]
      rw [Nat.mod_eq_of_lt hlt, if_pos hpos, List.mem_cons, hshift, ih (k + 1) (by omega)]
      constructor
      · rintro (rfl | ⟨b, h1, h2, h3⟩)
        · exact ⟨k, le_refl _, hkw, rfl⟩
        · exact ⟨b, by omega, h2, h3⟩
      · rintro ⟨b, h1, h2, h3⟩
        rcases Nat.eq_or_lt_of_le h1 with h | h
        · left; rw [h3, h]
        · right; exact ⟨b, h, h2, h3⟩
    · have hz : 2 ^ k % 2 ^ w = 0 :=
        Nat.mod_eq_zero_of_dvd (Nat.pow_dvd_pow 2 (by omega))
      rw [hz]
      simp only [ne_eq, not_true_eq_false, if_false, List.not_mem_nil, false_iff]
      rintro ⟨b, h1, h2, -⟩
      omega

theorem mem_test3_bounds {w n b : Nat} (hw : 0 < w) :
    b ∈ test3_bounds w n ↔ ∃ k, k < w ∧ ∃ i, i < n ∧ b = sweep_bound w (2 ^ k) i := by
  have hone : 2 ^ 0 % 2 ^ w = 1 := Nat.mod_eq_of_lt (Nat.one_lt_two_pow (by omega))
  have hbits : ∀ x, x ∈ bit_loop w (w + 1) 1 ↔ ∃ k, 0 ≤ k ∧ k < w ∧ x = 2 ^ k := by
    intro x
    have h := @mem_bit_loop w x (w + 1) 0 (by omega)
    rw [hone] at h
    exact h
  unfold test3_bounds
  rw [List.mem_flatMap]
  constructor
  · rintro ⟨bit, hbit, hb⟩
    rw [hbits] at hbit
    obtain ⟨k, -, hk, rfl⟩ := hbit
    rw [List.mem_map] at hb
    obtain ⟨i, hi, rfl⟩ := hb
    exact ⟨k, hk, i, List.mem_range.mp hi, rfl⟩
  · rintro ⟨k, hk, i, hi, rfl⟩
    refine ⟨2 ^ k, ?_, List.mem_map.mpr ⟨i, List.mem_range.mpr hi, rfl⟩⟩
    rw [hbits]
    exact ⟨k, Nat.zero_le _, hk, rfl⟩

/-- The bound of Test 3 has the bit `2 ^ k` set and no higher one. -/
theorem sweep_bound_range {w k : Nat} (hk : k < w) (i : Nat) :
    sweep_bound w (2 ^ k) i = 2 ^ k + i % 2 ^ k ∧
      2 ^ k ≤ sweep_bound w (2 ^ k) i ∧ sweep_bound w (2 ^ k) i < 2 * 2 ^ k := by
  have hlt : 2 ^ k < 2 ^ w := Nat.pow_lt_pow_right (by decide) hk
  have hpos : 0 < 2 ^ k := Nat.two_pow_pos k
  have hsub : wsub w (2 ^ k) 1 = 2 ^ k - 1 := wsub_eq hpos hlt
  have hm : i % 2 ^ k < 2 ^ k := Nat.mod_lt _ hpos
  have hor := Nat.mul_add_lt_is_or hm 1
  rw [Nat.mul_one] at hor
  have e : sweep_bound w (2 ^ k) i = 2 ^ k + i % 2 ^ k := by
    unfold sweep_bound
    rw [hsub, Nat.and_pow_two_sub_one_eq_mod, ← hor]
  rw [e]
  exact ⟨rfl, by omega, by omega⟩

theorem le_or_right (a b : Nat) : b ≤ a ||| b := by
  apply Nat.le_of_testBit
  intro i hi
  rw [Nat.testBit_or, hi, Bool.or_true]

theorem main32_bounds_pos {b : Nat} (hb : b ∈ main32_bounds) : b ≠ 0 := by
  unfold main32_bounds at hb
  rw [List.mem_append, List.mem_append] at hb
  rcases hb with (hb | hb) | hb
  · have := mem_countdown.mp hb
    omega
  · rw [List.mem_flatMap] at hb
    obtain ⟨_, -, hb⟩ := hb
    have := mem_countdown.mp hb
    omega
  · obtain ⟨k, hk, i, -, rfl⟩ := (mem_test3_bounds (by decide)).mp hb
    have h := (sweep_bound_range hk i).2.1
    have : 0 < 2 ^ k := Nat.two_pow_pos k
    omega

theorem main64_bounds_pos {b : Nat} (hb : b ∈ main64_bounds) : b ≠ 0 := by
  unfold main64_bounds at hb
  rw [List.mem_append, List.mem_append, List.mem_append, List.mem_append] at hb
  rcases hb with (((hb | hb) | hb) | hb) | hb
  · rw [List.mem_map] at hb
    obtain ⟨i, hi, rfl⟩ := hb
    have h1 := mem_countdown.mp hi
    have h2 := le_or_right ((i <<< 32) % 2 ^ 64) i
    omega
  · have := mem_countdown.mp hb
    omega
  · obtain ⟨k, hk, i, -, rfl⟩ := (mem_test3_bounds (by decide)).mp hb
    have h := (sweep_bound_range hk i).2.1
    have : 0 < 2 ^ k := Nat.two_pow_pos k
    omega
  · rw [List.mem_map] at hb
    obtain ⟨_, -, rfl⟩ := hb
    decide
  · rw [List.mem_map] at hb
    obtain ⟨_, -, rfl⟩ := hb
    decide

/-- C20: every bound that the 32-bit and the 64-bit `main` pass to
`bounded_rand` is nonzero; the bounds of Test 3 are the values
`bit | (i & (bit - 1))` for `bit = 2 ^ k`, `k` below the word width, and `i`
below the inner loop count, and each of them satisfies
`bit ≤ bound < 2 * bit`. -/
theorem workload_bounds_nonzero :
    (∀ b, b ∈ main32_bounds → b ≠ 0) ∧ (∀ b, b ∈ main64_bounds → b ≠ 0) ∧
    (∀ b, b ∈ test3_bounds 32 0x1000000
      ↔ ∃ k, k < 32 ∧ ∃ i, i < 0x1000000 ∧ b = sweep_bound 32 (2 ^ k) i) ∧
    (∀ b, b ∈ test3_bounds 64 0x800000
      ↔ ∃ k, k < 64 ∧ ∃ i, i < 0x800000 ∧ b = sweep_bound 64 (2 ^ k) i) ∧
    (∀ k i, k < 32 →
      2 ^ k ≤ sweep_bound 32 (2 ^ k) i ∧ sweep_bound 32 (2 ^ k) i < 2 * 2 ^ k) ∧
    (∀ k i, k < 64 →
      2 ^ k ≤ sweep_bound 64 (2 ^ k) i ∧ sweep_bound 64 (2 ^ k) i < 2 * 2 ^ k) :=
  ⟨fun _ hb => main32_bounds_pos hb, fun _ hb => main64_bounds_pos hb,
    fun _ => mem_test3_bounds (by decide), fun _ => mem_test3_bounds (by decide),
    fun _ i hk => (sweep_bound_range hk i).2, fun _ i hk => (sweep_bound_range hk i).2⟩

/-- Witness for C20: the first bound of the 32-bit Test 1 and a bound of the
64-bit Test 3. -/
theorem workload_bounds_nonzero_witness :
    (0xffffffff : Nat) ≠ 0 ∧
    (2 ^ 63 ≤ sweep_bound 64 (2 ^ 63) 0x7fffff ∧
      sweep_bound 64 (2 ^ 63) 0x7fffff < 2 * 2 ^ 63) :=
  ⟨workload_bounds_nonzero.1 0xffffffff
      (List.mem_append.mpr (Or.inl (List.mem_append.mpr
        (Or.inl (mem_countdown.mpr ⟨by decide, by decide⟩))))),
    workload_bounds_nonzero.2.2.2.2.2 63 0x7fffff (by decide)⟩

/-! ## Coverage of the boundary sweep -/

theorem test3_bounds_eq (w n : Nat) :
    test3_bounds w n = (bit_loop w (w + 1) 1).flatMap (test3_inner w n) := rfl

/-- For `bit = 2 ^ k` the inner loop of Test 3 generates the values
`2 ^ k + j` with `j` below both `2 ^ k` and the loop count `n`. -/
theorem mem_test3_inner {w k : Nat} (hk : k < w) (n r : Nat) :
    r ∈ test3_inner w n (2 ^ k) ↔ 2 ^ k ≤ r ∧ r < 2 ^ k + min (2 ^ k) n := by
  have hpos : 0 < 2 ^ k := Nat.two_pow_pos k
  unfold test3_inner
  rw [List.mem_map]
  constructor
  · rintro ⟨i, hi, rfl⟩
    rw [(sweep_bound_range hk i).1]
    have h1 : i % 2 ^ k < 2 ^ k := Nat.mod_lt _ hpos
    have h2 : i % 2 ^ k ≤ i := Nat.mod_le _ _
    have h3 := List.mem_range.mp hi
    omega
  · rintro ⟨h1, h2⟩
    have hj : r - 2 ^ k < 2 ^ k := by omega
    refine ⟨r - 2 ^ k, List.mem_range.mpr (by omega), ?_⟩
    rw [(sweep_bound_range hk (r - 2 ^ k)).1, Nat.mod_eq_of_lt hj]
    omega

theorem test3_inner_sub {w k : Nat} (hk : k < w) (n r : Nat)
    (h : r ∈ test3_inner w n (2 ^ k)) : r ∈ test3_bounds w n := by
  have hw : 0 < w := by omega
  unfold test3_inner at h
  rw [List.mem_map] at h
  obtain ⟨i, hi, rfl⟩ := h
  exact (mem_test3_bounds hw).mpr ⟨k, hk, i, List.mem_range.mp hi, rfl⟩

/-- C21, counterexample: `0x3000000` has bit 25 set and no higher bit, but the
32-bit Test 3 generates it neither for bit position 25 nor for any other. -/
theorem sweep_coverage_gap :
    2 ^ 25 ≤ 0x3000000 ∧ 0x3000000 < 2 ^ (25 + 1) ∧
    0x3000000 ∉ test3_inner 32 0x1000000 (2 ^ 25) ∧
    0x3000000 ∉ test3_bounds 32 0x1000000 := by
  refine ⟨by decide, by decide, ?_, ?_⟩
  · rw [mem_test3_inner (by decide)]
    decide
  · intro h
    obtain ⟨k, hk, i, hi, he⟩ := (mem_test3_bounds (by decide)).mp h
    have hmem : 0x3000000 ∈ test3_inner 32 0x1000000 (2 ^ k) := by
      unfold test3_inner
      exact List.mem_map.mpr ⟨i, List.mem_range.mpr hi, he.symm⟩
    rw [mem_test3_inner hk] at hmem
    obtain ⟨h1, h2⟩ := hmem
    interval_cases k <;> simp at h1 h2

/-- C21, amended: in the 32-bit Test 3, for a bit position `b < 32` the bounds
generated for that position are exactly the values `r` with
`2 ^ b ≤ r < 2 ^ b + min (2 ^ b) (2 ^ 24)`; so for `b ≤ 24` every `r` with
`2 ^ b ≤ r < 2 ^ (b + 1)` is generated, and for `b > 24` only those whose
lower bits are below `2 ^ 24`.  Every bound so generated is a bound of
Test 3. -/
theorem sweep_coverage (b r : Nat) (hb : b < 32) :
    (r ∈ test3_inner 32 0x1000000 (2 ^ b)
      ↔ 2 ^ b ≤ r ∧ r < 2 ^ b + min (2 ^ b) (2 ^ 24)) ∧
    (b ≤ 24 → (r ∈ test3_inner 32 0x1000000 (2 ^ b) ↔ 2 ^ b ≤ r ∧ r < 2 ^ (b + 1))) ∧
    (24 < b → (r ∈ test3_inner 32 0x1000000 (2 ^ b) ↔ 2 ^ b ≤ r ∧ r < 2 ^ b + 2 ^ 24)) ∧
    (r ∈ test3_inner 32 0x1000000 (2 ^ b) → r ∈ test3_bounds 32 0x1000000) := by
  have hn : (0x1000000 : Nat) = 2 ^ 24 := by decide
  have hmem := mem_test3_inner hb 0x1000000 r
  rw [hn] at hmem ⊢
  refine ⟨hmem, ?_, ?_, fun h => test3_inner_sub hb _ r h⟩
  · intro h24
    have hle : 2 ^ b ≤ 2 ^ 24 := Nat.pow_le_pow_right (by decide) h24
    rw [hmem, Nat.min_eq_left hle, pow_succ]
    omega
  · intro h24
    have hle : 2 ^ 24 ≤ 2 ^ b := Nat.pow_le_pow_right (by decide) (le_of_lt h24)
    rw [hmem, Nat.min_eq_right hle]

/-- Witness for C21 (amended): bit position 3 and the bound 13. -/
theorem sweep_coverage_witness :
    ((13 ∈ test3_inner 32 0x1000000 (2 ^ 3)
      ↔ 2 ^ 3 ≤ 13 ∧ 13 < 2 ^ 3 + min (2 ^ 3) (2 ^ 24)) ∧
    (3 ≤ 24 → (13 ∈ test3_inner 32 0x1000000 (2 ^ 3) ↔ 2 ^ 3 ≤ 13 ∧ 13 < 2 ^ (3 + 1))) ∧
    (24 < 3 → (13 ∈ test3_inner 32 0x1000000 (2 ^ 3) ↔ 2 ^ 3 ≤ 13 ∧ 13 < 2 ^ 3 + 2 ^ 24)) ∧
    (13 ∈ test3_inner 32 0x1000000 (2 ^ 3) → 13 ∈ test3_bounds 32 0x1000000)) ∧
    13 ∈ test3_bounds 32 0x1000000 :=
  ⟨sweep_coverage 3 13 (by decide),
    (sweep_coverage 3 13 (by decide)).2.2.2
      (((sweep_coverage 3 13 (by decide)).2.1 (by decide)).mpr ⟨by decide, by decide⟩)⟩

/-! ## The divisor of the debiased division variant -/

/-- C22: for `0 < range < 2 ^ w` the `w`-bit value `((-range) / range) + 1` is
`2 ^ w / range` reduced modulo `2 ^ w`; it is zero exactly for range 1, where
the call returns 0 and draws no word; for `range ≥ 2` it is nonzero (it is
`2 ^ w / range` itself, at least 1), and the call runs the division loop. -/
theorem divisor_zero_case (w range : Nat) (h0 : 0 < range) (hr : range < 2 ^ w) :
    (wneg w range / range + 1) % 2 ^ w = 2 ^ w / range % 2 ^ w ∧
    (divisor w range = 0 ↔ range = 1) ∧
    (range = 1 → ∀ rng, bounded_rand .DEBIASED_DIV w range rng = some (0, rng)) ∧
    (2 ≤ range →
      divisor w range = 2 ^ w / range ∧ 0 < divisor w range ∧
        ∀ rng, bounded_rand .DEBIASED_DIV w range rng
          = DEBIASED_DIV_loop range (divisor w range) rng) := by
  have hd : divisor w range = 2 ^ w / range % 2 ^ w := divisor_eq h0 hr
  have hbig : 2 ≤ range → divisor w range = 2 ^ w / range ∧ 0 < divisor w range := by
    intro h2
    have hlt : 2 ^ w / range < 2 ^ w := Nat.div_lt_self (Nat.two_pow_pos w) h2
    rw [hd, Nat.mod_eq_of_lt hlt]
    exact ⟨rfl, Nat.div_pos (le_of_lt hr) h0⟩
  have hone : range = 1 → divisor w range = 0 := by
    rintro rfl
    rw [hd, Nat.div_one, Nat.mod_self]
  refine ⟨hd, ?_, ?_, ?_⟩
  · constructor
    · intro hz
      by_contra hne
      have := (hbig (by omega)).2
      omega
    · exact hone
  · rintro rfl rng
    exact DEBIASED_DIV_one w rng
  · intro h2
    obtain ⟨h3, h4⟩ := hbig h2
    refine ⟨h3, h4, fun rng => ?_⟩
    rw [DEBIASED_DIV_unfold, if_neg (by omega)]

/-- Witness for C22: 32-bit words, range 7, whose divisor is 613566756. -/
theorem divisor_zero_case_witness :
    ((wneg 32 7 / 7 + 1) % 2 ^ 32 = 2 ^ 32 / 7 % 2 ^ 32 ∧
    (divisor 32 7 = 0 ↔ 7 = 1) ∧
    (7 = 1 → ∀ rng, bounded_rand .DEBIASED_DIV 32 7 rng = some (0, rng)) ∧
    (2 ≤ 7 →
      divisor 32 7 = 2 ^ 32 / 7 ∧ 0 < divisor 32 7 ∧
        ∀ rng, bounded_rand .DEBIASED_DIV 32 7 rng
          = DEBIASED_DIV_loop 7 (divisor 32 7) rng)) ∧
    divisor 32 7 = 613566756 ∧ bounded_rand .DEBIASED_DIV 32 1 [5] = some (0, [5]) :=
  ⟨divisor_zero_case 32 7 (by decide) (by decide), by decide, by decide⟩

end BoundedRands
